import Mathlib

/-!
Verification of the property_hunt_v2 extraction pipeline.

The Python source (`utils/links.py`, `utils/details.py`) is shallowly
embedded below.  Python's `re.search` is modelled by a small backtracking
matcher over an abstract-syntax-tree transcription of the exact patterns
appearing in the source (ordered alternation, greedy bounded repetition of
character classes, capture groups, word-boundary checks — the only
constructs those patterns use).  The HTML parser (BeautifulSoup) and the
HTTP transport are external collaborators: they are passed in as explicit
function parameters, exactly where the source calls them.
-/

set_option maxRecDepth 10000

namespace PropertyHunt

/-! ### Character helpers (ASCII semantics of the Python string methods) -/

/-- Lower-cased code point of an ASCII character, as `str.lower` maps it. -/
def lcn (c : Char) : Nat :=
  if 65 ≤ c.toNat ∧ c.toNat ≤ 90 then c.toNat + 32 else c.toNat

/-- Lower-case an ASCII character (Python `str.lower` per character). -/
def lcC (c : Char) : Char :=
  if 65 ≤ c.toNat ∧ c.toNat ≤ 90 then Char.ofNat (c.toNat + 32) else c

/-- Upper-case an ASCII character (Python `str.upper` per character). -/
def ucC (c : Char) : Char :=
  if 97 ≤ c.toNat ∧ c.toNat ≤ 122 then Char.ofNat (c.toNat - 32) else c

/-- Python regex `\s` (ASCII range): space, TAB, LF, CR, VT, FF. -/
def pySpaceB (c : Char) : Bool :=
  c == ' ' || c == '\t' || c == '\n' || c == '\r' || c == '\x0b' || c == '\x0c'

/-- Python regex `\w` (ASCII range): letters, digits, underscore. -/
def isWordChar (c : Char) : Bool :=
  c.isAlphanum || c == '_'

def isDigitB (c : Char) : Bool := c.isDigit

def isAlphaB (c : Char) : Bool := c.isAlpha

/-- Numeric value of a digit string (Python `int` on an all-digit string). -/
def natOfDigits (l : List Char) : Nat :=
  l.foldl (fun a c => a * 10 + (c.toNat - 48)) 0

def pyLower (s : String) : String := String.mk (s.toList.map lcC)

def pyUpper (s : String) : String := String.mk (s.toList.map ucC)

/-- Python `str.strip()` restricted to the ASCII whitespace the fields use. -/
def pyStrip (s : String) : String :=
  String.mk (((s.toList.dropWhile pySpaceB).reverse.dropWhile pySpaceB).reverse)

/-! ### A backtracking matcher with Python `re.search` semantics

Constructors cover exactly the constructs used by the source's patterns:
single-character classes, concatenation, ordered alternation, greedy
option, greedy bounded/unbounded repetition of a character class, numbered
capture groups, and a trailing word-boundary test. -/

inductive RE where
  | eps : RE
  | cls : (Char → Bool) → RE
  | seq : RE → RE → RE
  | alt : RE → RE → RE
  | opt : RE → RE
  | rep : (Char → Bool) → Nat → Option Nat → RE
  | grp : Nat → RE → RE
  | nw : RE

/-- Captured groups: group index paired with the consumed characters. -/
abbrev Caps := List (Nat × List Char)

/-- Greedy backtracking over a class repetition: try consuming `j` characters,
then `j-1`, …, stopping after `cnt` attempts (so down to `j - cnt + 1`). -/
def tryCnt (k : List Char → Caps → Option Caps) (s : List Char) (c : Caps) :
    Nat → Nat → Option Caps
  | 0, _ => none
  | cnt + 1, j =>
    match k (s.drop j) c with
    | some r => some r
    | none => tryCnt k s c cnt (j - 1)

/-- Run a pattern at the head of `s` in continuation-passing style; the
continuation receives the remaining input and the captures so far.  The
traversal order (ordered alternation, greedy option and repetition)
reproduces the Python backtracking engine. -/
def mrun : RE → List Char → Caps → (List Char → Caps → Option Caps) → Option Caps
  | .eps, s, c, k => k s c
  | .cls p, s, c, k =>
    match s with
    | [] => none
    | ch :: rest => if p ch then k rest c else none
  | .seq a b, s, c, k => mrun a s c (fun s' c' => mrun b s' c' k)
  | .alt a b, s, c, k =>
    match mrun a s c k with
    | some r => some r
    | none => mrun b s c k
  | .opt a, s, c, k =>
    match mrun a s c k with
    | some r => some r
    | none => k s c
  | .grp i a, s, c, k =>
    mrun a s c (fun s' c' => k s' ((i, s.take (s.length - s'.length)) :: c'))
  | .nw, s, c, k =>
    match s with
    | [] => k s c
    | ch :: _ => if isWordChar ch then none else k s c
  | .rep p lo hi, s, c, k =>
    let mx := (s.takeWhile p).length
    let top := match hi with | none => mx | some h => min mx h
    if top < lo then none else tryCnt k s c (top - lo + 1) top

/-- A compiled pattern: the AST plus whether the pattern begins with `\b`
(all such patterns in the source then start with a word character, so the
boundary holds exactly at positions not preceded by a word character). -/
structure Pat where
  ast : RE
  wb : Bool

/-- Try a match starting exactly here (captures of the leftmost match). -/
def matchAt (r : RE) (s : List Char) : Option Caps :=
  mrun r s [] (fun _ c => some c)

/-- Scan positions left to right, as `re.search` does; `prevW` records
whether the previous character is a word character (for leading `\b`). -/
def searchAux (r : RE) (wb : Bool) : Bool → List Char → Option Caps
  | prevW, [] => if wb && prevW then none else matchAt r []
  | prevW, ch :: rest =>
    match (if wb && prevW then none else matchAt r (ch :: rest)) with
    | some cp => some cp
    | none => searchAux r wb (isWordChar ch) rest

/-- Python `re.search`: `some` captures at the leftmost matching position. -/
def Pat.search (p : Pat) (s : String) : Option Caps :=
  searchAux p.ast p.wb false s.toList

/-- `m.group(i)` of a match. -/
def grpStr (c : Caps) (i : Nat) : Option String :=
  (c.find? (fun x => x.1 == i)).map (fun x => String.mk x.2)

/-! ### The patterns of `utils/details.py`, transcribed -/

/-- A case-insensitive literal character (the patterns carry `re.I`). -/
def chr (c : Char) : RE := .cls (fun x => lcn x == lcn c)

/-- A case-insensitive literal string. -/
def lit (s : String) : RE := s.toList.foldr (fun c r => .seq (chr c) r) .eps

def cat (l : List RE) : RE := l.foldr .seq .eps

def alts : List RE → RE
  | [] => .eps
  | [r] => r
  | r :: rest => .alt r (alts rest)

/-- `\s*` -/
def wsp : RE := .rep pySpaceB 0 none

/-- `\s+` -/
def wsp1 : RE := .rep pySpaceB 1 none

/-- `£\s*([\d,]+)` -/
def _PRICE_RE : Pat :=
  ⟨cat [chr '£', wsp, .grp 1 (.rep (fun c => isDigitB c || c == ',') 1 none)], false⟩

/-- `(\d+)\s*bed(?:room)?` -/
def _BEDS_RE : Pat :=
  ⟨cat [.grp 1 (.rep isDigitB 1 none), wsp, lit "bed", .opt (lit "room")], false⟩

/-- `\b([A-Z]{1,2}\d{1,2}[A-Z]?\s*\d[A-Z]{2})\b` with `re.I`. -/
def _POSTCODE_RE : Pat :=
  ⟨cat [.grp 1 (cat [.rep isAlphaB 1 (some 2), .rep isDigitB 1 (some 2),
      .opt (.cls isAlphaB), wsp, .cls isDigitB, .rep isAlphaB 2 (some 2)]), .nw], true⟩

/-- `\b(leasehold|freehold|share of freehold)\b` -/
def _TENURE_RE : Pat :=
  ⟨cat [.grp 1 (alts [lit "leasehold", lit "freehold", lit "share of freehold"]), .nw], true⟩

/-- `(\d{2,4})\s*(?:years?|yrs?)\s*(?:remaining|left|lease|unexpired)?` -/
def _LEASE_YEARS_RE : Pat :=
  ⟨cat [.grp 1 (.rep isDigitB 2 (some 4)), wsp,
      .alt (cat [lit "year", .opt (chr 's')]) (cat [lit "yr", .opt (chr 's')]), wsp,
      .opt (alts [lit "remaining", lit "left", lit "lease", lit "unexpired"])], false⟩

/-- `(sold\s+stc|sstc|sold\s+subject\s+to\s+contract|under\s+offer|offer\s+agreed|sale\s+agreed)` -/
def _OFF_MARKET_RE : Pat :=
  ⟨.grp 1 (alts [cat [lit "sold", wsp1, lit "stc"], lit "sstc",
      cat [lit "sold", wsp1, lit "subject", wsp1, lit "to", wsp1, lit "contract"],
      cat [lit "under", wsp1, lit "offer"],
      cat [lit "offer", wsp1, lit "agreed"],
      cat [lit "sale", wsp1, lit "agreed"]]), false⟩

/-- `(\d{1,2}/\d{1,2}/\d{2,4})` — the date group shared by both patterns. -/
def dmyGroup : RE :=
  .grp 1 (cat [.rep isDigitB 1 (some 2), chr '/', .rep isDigitB 1 (some 2),
      chr '/', .rep isDigitB 2 (some 4)])

/-- `Added on[^0-9]{0,10}(\d{1,2}/\d{1,2}/\d{2,4})` -/
def _ADDED_DATE : Pat :=
  ⟨cat [lit "Added on", .rep (fun c => !isDigitB c) 0 (some 10), dmyGroup], false⟩

/-- `Reduced on[^0-9]{0,10}(\d{1,2}/\d{1,2}/\d{2,4})` -/
def _REDUCED_DATE : Pat :=
  ⟨cat [lit "Reduced on", .rep (fun c => !isDigitB c) 0 (some 10), dmyGroup], false⟩

/-- `added\s+(\d+)\s+days?\s+ago` -/
def _ADDED_REL : Pat :=
  ⟨cat [lit "added", wsp1, .grp 1 (.rep isDigitB 1 none), wsp1,
      lit "day", .opt (chr 's'), wsp1, lit "ago"], false⟩

/-- `reduced\s+(\d+)\s+days?\s+ago` -/
def _REDUCED_REL : Pat :=
  ⟨cat [lit "reduced", wsp1, .grp 1 (.rep isDigitB 1 none), wsp1,
      lit "day", .opt (chr 's'), wsp1, lit "ago"], false⟩

/-- `(pcm|per month|per\s*annum|per year|p\.?a\.?|pa)` -/
def perAlt : RE :=
  alts [lit "pcm", lit "per month", cat [lit "per", wsp, lit "annum"], lit "per year",
    cat [chr 'p', .opt (chr '.'), chr 'a', .opt (chr '.')], lit "pa"]

/-- `[\d,]+(?:\.\d{1,2})?` -/
def amountRE : RE :=
  cat [.rep (fun c => isDigitB c || c == ',') 1 none,
    .opt (cat [chr '.', .rep isDigitB 1 (some 2)])]

/-- The combined-charge pattern searched first in `_extract_charges`. -/
def _COMB_RE : Pat :=
  ⟨cat [.alt (cat [lit "service", wsp, lit "charge", wsp, lit "and", wsp, lit "ground", wsp, lit "rent"])
          (cat [lit "ground", wsp, lit "rent", wsp, lit "and", wsp, lit "service", wsp, lit "charge"]),
      .rep (fun c => c != '£') 0 (some 40), chr '£', wsp,
      .grp 1 amountRE, wsp, .opt (.grp 2 perAlt)], false⟩

/-- `service\s*(?:/maintenance)?\s*charge[^£]{0,40}£\s*(amount)\s*(period)?` -/
def _SC_SEARCH : Pat :=
  ⟨cat [lit "service", wsp, .opt (lit "/maintenance"), wsp, lit "charge",
      .rep (fun c => c != '£') 0 (some 40), chr '£', wsp,
      .grp 1 amountRE, wsp, .opt (.grp 2 perAlt)], false⟩

/-- `ground\s*rent[^£]{0,40}£\s*(amount)\s*(period)?` -/
def _GR_SEARCH : Pat :=
  ⟨cat [lit "ground", wsp, lit "rent",
      .rep (fun c => c != '£') 0 (some 40), chr '£', wsp,
      .grp 1 amountRE, wsp, .opt (.grp 2 perAlt)], false⟩

example : (_PRICE_RE.search "offers over £123,500 freehold").bind (grpStr · 1) = some "123,500" := by decide
example : (_POSTCODE_RE.search "in nr1  2ab area").bind (grpStr · 1) = some "nr1  2ab" := by decide
example : (_COMB_RE.search "Service Charge And Ground Rent Approx £95 PCM").bind (grpStr · 2) = some "PCM" := by decide
example : (_LEASE_YEARS_RE.search "a 999 years lease").bind (grpStr · 1) = some "999" := by decide
example : (_ADDED_DATE.search "Added on 05/01/24").bind (grpStr · 1) = some "05/01/24" := by decide

/-! ### Dates (the ambient `datetime.today()` is threaded as a parameter) -/

/-- A proleptic-Gregorian calendar date, as `datetime.date` holds it. -/
structure Date where
  y : Nat
  m : Nat
  d : Nat
deriving DecidableEq, Repr

def isLeap (y : Nat) : Bool :=
  (y % 4 == 0 && y % 100 != 0) || y % 400 == 0

def daysInMonth (y m : Nat) : Nat :=
  if m == 2 then (if isLeap y then 29 else 28)
  else if m == 4 || m == 6 || m == 9 || m == 11 then 30
  else 31

/-- The previous calendar day. -/
def prevDay (dt : Date) : Date :=
  if dt.d > 1 then ⟨dt.y, dt.m, dt.d - 1⟩
  else if dt.m > 1 then ⟨dt.y, dt.m - 1, daysInMonth dt.y (dt.m - 1)⟩
  else ⟨dt.y - 1, 12, 31⟩

/-- `date - timedelta(days=n)`. -/
def subDays (dt : Date) : Nat → Date
  | 0 => dt
  | n + 1 => subDays (prevDay dt) n

/-- Zero-pad to two digits, as `%m` / `%d` print. -/
def pad2 (n : Nat) : String :=
  if n < 10 then "0" ++ toString n else toString n

/-- `strftime("%Y-%m-%d")`. -/
def isoDate (dt : Date) : String :=
  toString dt.y ++ "-" ++ pad2 dt.m ++ "-" ++ pad2 dt.d

/-- Python `str.split(sep)` for a one-character separator (empty pieces kept). -/
def splitChar (sep : Char) : List Char → List (List Char)
  | [] => [[]]
  | c :: rest =>
    let r := splitChar sep rest
    if c == sep then [] :: r
    else
      match r with
      | h :: t => (c :: h) :: t
      | [] => [[c]]

/-- `_norm_date_dmy`: split on `/`, read a 2-digit year as `20xx`, validate
through `strptime("%d/%m/%Y")` and render ISO; any failure yields `none`.
`strptime` accepts 1-2 digit day/month tokens, requires exactly four
digits for `%Y` (so a 3-digit year from the `\d{2,4}` capture fails), and
rejects impossible dates such as 31 February. -/
def _norm_date_dmy (dmy : String) : Option String :=
  match splitChar '/' (pyStrip dmy).toList with
  | [ds, ms, ys] =>
    let ys := if ys.length == 2 then '2' :: '0' :: ys else ys
    if ds.length == 0 || 2 < ds.length || !ds.all isDigitB then none
    else if ms.length == 0 || 2 < ms.length || !ms.all isDigitB then none
    else if ys.length != 4 || !ys.all isDigitB then none
    else
      let dv := natOfDigits ds
      let mv := natOfDigits ms
      let yv := natOfDigits ys
      if 1 ≤ yv && 1 ≤ mv && mv ≤ 12 && 1 ≤ dv && dv ≤ daysInMonth yv mv then
        some (isoDate ⟨yv, mv, dv⟩)
      else none
  | _ => none

/-- Whether `needle` occurs as a contiguous run inside `haystack`. -/
def hasRun (needle : List Char) : List Char → Bool
  | [] => needle.isEmpty
  | c :: rest => needle.isPrefixOf (c :: rest) || hasRun needle rest

/-- `"needle" in haystack` on strings. -/
def inStr (needle haystack : String) : Bool :=
  hasRun needle.toList haystack.toList

/-- `parse_added_reduced`, with `datetime.today().date()` passed in as
`today`.  Absolute labels are tried first; on failure (no match, or an
invalid date) the relative phrasings are tried in the source's order. -/
def parse_added_reduced (today : Date) (text : String) : Option String × Option String :=
  let t := text
  let added :=
    match _ADDED_DATE.search t with
    | some cp => (grpStr cp 1).bind _norm_date_dmy
    | none => none
  let reduced :=
    match _REDUCED_DATE.search t with
    | some cp => (grpStr cp 1).bind _norm_date_dmy
    | none => none
  let low := pyLower t
  let added :=
    match added with
    | some v => some v
    | none =>
      if inStr "added yesterday" low then some (isoDate (subDays today 1))
      else if inStr "added today" low then some (isoDate today)
      else
        match _ADDED_REL.search low with
        | some cp => (grpStr cp 1).map (fun g => isoDate (subDays today (natOfDigits g.toList)))
        | none => none
  let reduced :=
    match reduced with
    | some v => some v
    | none =>
      if inStr "reduced yesterday" low then some (isoDate (subDays today 1))
      else if inStr "reduced today" low then some (isoDate today)
      else
        match _REDUCED_REL.search low with
        | some cp => (grpStr cp 1).map (fun g => isoDate (subDays today (natOfDigits g.toList)))
        | none => none
  (added, reduced)

/-! ### Charges -/

/-- Format an individual charge match: `f"£{m.group(1)} {m.group(2) or 'per year'}"`. -/
def fmtCharge : Option Caps → Option String
  | none => none
  | some cp => some ("£" ++ ((grpStr cp 1).getD "") ++ " " ++ ((grpStr cp 2).getD "per year"))

/-- `_extract_charges`: combined phrase first; otherwise the two
independent searches. -/
def _extract_charges (text : String) : Option String × Option String :=
  let t := text
  match _COMB_RE.search t with
  | some cp =>
    let val := (grpStr cp 1).getD ""
    let per := (grpStr cp 2).getD "per year"
    (some ("£" ++ val ++ " " ++ per ++ " (combined)"), none)
  | none => (fmtCharge (_SC_SEARCH.search t), fmtCharge (_GR_SEARCH.search t))

/-! ### Record assembly -/

/-- One row per listing URL, the keys of the dict built by
`parse_text_fields` / `_fetch_one`; a key the Python dict lacks is `none`. -/
structure ListingRecord where
  url : String
  price_gbp : Option Nat
  bedrooms : Option Nat
  postcode : Option String
  tenure : Option String
  lease_years : Option Nat
  service_charge : Option String
  ground_rent : Option String
  availability : Option String
  added_on : Option String
  reduced_on : Option String
  image_url : Option String
  error : Option String
deriving DecidableEq, Repr

/-- `int(m.group(1).replace(",", ""))` guarded by try/except. -/
def intStripCommas (s : String) : Option Nat :=
  let l := s.toList.filter (fun c => c != ',')
  if l.isEmpty || !l.all isDigitB then none else some (natOfDigits l)

/-- Python `str.replace("  ", " ")`: one left-to-right pass replacing each
non-overlapping pair of spaces by a single space. -/
def replacePairSpace : List Char → List Char
  | [] => []
  | [c] => [c]
  | c1 :: c2 :: rest =>
    if c1 == ' ' && c2 == ' ' then ' ' :: replacePairSpace rest
    else c1 :: replacePairSpace (c2 :: rest)

/-- `pm.group(1).upper().replace("  ", " ").strip()`. -/
def normPostcode (g : String) : String :=
  pyStrip (String.mk (replacePairSpace (pyUpper g).toList))

/-- Python `str.title()` on ASCII text: the first letter of each letter run
upper-cased, the rest lower-cased. -/
def titleAux : Bool → List Char → List Char
  | _, [] => []
  | prevAlpha, c :: rest =>
    (if c.isAlpha then (if prevAlpha then lcC c else ucC c) else c) :: titleAux c.isAlpha rest

def pyTitle (s : String) : String := String.mk (titleAux false s.toList)

/-- `parse_text_fields`.  `gatherFocus` stands for the BeautifulSoup-based
`_gather_focus_text` and `ogImage` for `parse_og_image` (both are DOM
traversals over the external HTML parser, passed in as collaborators);
`today` is the ambient current date used by the relative-date fallback. -/
def parse_text_fields (gatherFocus : String → String) (ogImage : String → Option String)
    (today : Date) (html : String) : ListingRecord :=
  let t := html
  let price :=
    match _PRICE_RE.search t with
    | some cp => (grpStr cp 1).bind intStripCommas
    | none => none
  let beds :=
    match _BEDS_RE.search t with
    | some cp => (grpStr cp 1).map (fun g => natOfDigits g.toList)
    | none => none
  let postcode :=
    match _POSTCODE_RE.search t with
    | some cp => (grpStr cp 1).map normPostcode
    | none => none
  let tenure :=
    match _TENURE_RE.search t with
    | some cp => (grpStr cp 1).map pyTitle
    | none => none
  let lease_years :=
    match _LEASE_YEARS_RE.search t with
    | some cp => (grpStr cp 1).map (fun g => natOfDigits g.toList)
    | none => none
  let charges := _extract_charges (gatherFocus html)
  let availability := if (_OFF_MARKET_RE.search t).isSome then "off_market" else "on_market"
  let dates := parse_added_reduced today t
  { url := ""
    price_gbp := price
    bedrooms := beds
    postcode := postcode
    tenure := tenure
    lease_years := lease_years
    service_charge := charges.1
    ground_rent := charges.2
    availability := some availability
    added_on := dates.1
    reduced_on := dates.2
    image_url := ogImage html
    error := none }

/-! ### The async fetch batch -/

/-- What awaiting `client.get(url)` does for one URL: either a response
(status code and body text) or a raised transport-level exception carrying
a message. -/
inductive HttpResult where
  | success : Nat → String → HttpResult
  | failure : String → HttpResult
deriving DecidableEq

/-- The record `{"url": url, "error": msg}`: no extracted fields at all. -/
def errorRecord (url msg : String) : ListingRecord :=
  { url := url, price_gbp := none, bedrooms := none, postcode := none, tenure := none,
    lease_years := none, service_charge := none, ground_rent := none, availability := none,
    added_on := none, reduced_on := none, image_url := none, error := some msg }

/-- `_fetch_one`: a non-200 status or a raised exception becomes an error
record; a 200 response is parsed and tagged with its URL. -/
def fetch_one (gatherFocus : String → String) (ogImage : String → Option String)
    (today : Date) (net : String → HttpResult) (url : String) : ListingRecord :=
  match net url with
  | .failure msg => errorRecord url msg
  | .success status text =>
    if status != 200 then errorRecord url ("HTTP " ++ toString status)
    else { parse_text_fields gatherFocus ogImage today text with url := url }

/-- `scrape_details_async`: one record per input URL, in input order
(`asyncio.gather` preserves the order of its task list). -/
def scrape_details_async (gatherFocus : String → String) (ogImage : String → Option String)
    (today : Date) (net : String → HttpResult) (urls : List String) : List ListingRecord :=
  urls.map (fetch_one gatherFocus ogImage today net)

/-! ### The bounded-concurrency discipline of `scrape_details_async`

`asyncio.Semaphore(max_concurrency)` guards every fetch: a task acquires
the semaphore before its request and releases it afterwards (`async with
sem`).  The event loop's interleavings are modelled as a transition system
over the tasks' phases plus the semaphore counter. -/

inductive TaskPhase where
  | waiting : TaskPhase
  | running : TaskPhase
  | finished : TaskPhase
deriving DecidableEq

def TaskPhase.isRunning : TaskPhase → Bool
  | .running => true
  | _ => false

/-- The loop state: the semaphore's current value and each task's phase. -/
structure BatchState where
  sem : Nat
  tasks : List TaskPhase
deriving DecidableEq

/-- All tasks are created up front (`tasks = [bound(u) for u in urls]`);
the semaphore starts at the concurrency bound. -/
def initState (n k : Nat) : BatchState :=
  ⟨n, List.replicate k .waiting⟩

/-- One scheduler step: a waiting task may enter `async with sem` only when
the semaphore is positive (acquire decrements it); a running task's fetch
may complete at any time (release increments it). -/
inductive BatchStep : BatchState → BatchState → Prop where
  | acquire (s : BatchState) (i : Nat) (h : s.tasks[i]? = some .waiting) (hs : 0 < s.sem) :
      BatchStep s ⟨s.sem - 1, s.tasks.set i .running⟩
  | release (s : BatchState) (i : Nat) (h : s.tasks[i]? = some .running) :
      BatchStep s ⟨s.sem + 1, s.tasks.set i .finished⟩

/-- Number of requests currently in flight. -/
def inFlight (s : BatchState) : Nat :=
  s.tasks.countP TaskPhase.isRunning

/-- States the batch can reach from its start. -/
def Reachable (n k : Nat) (s : BatchState) : Prop :=
  Relation.ReflTransGen BatchStep (initState n k) s

/-! ### `urllib` as used by `utils/links.py`

`urlparse` / `urlunparse` / `parse_qs` / `urlencode` are embedded at the
character level.  Percent-decoding treats each `%XX` pair as one code
point, which is exact for ASCII; the theorems about URL normalization are
stated for ASCII inputs. -/

def RIGHTMOVE_HOST : String := "www.rightmove.co.uk"

/-- The characters `quote_plus` leaves unescaped (`safe=''`). -/
def safeQ (c : Char) : Bool :=
  c.isAlphanum || c == '_' || c == '.' || c == '-' || c == '~'

/-- Upper-case hexadecimal digit, as `quote` emits. -/
def hexDigit (n : Nat) : Char :=
  if n < 10 then Char.ofNat (48 + n) else Char.ofNat (55 + n)

/-- UTF-8 bytes of a code point (what `quote` percent-encodes). -/
def utf8Bytes (n : Nat) : List Nat :=
  if n < 128 then [n]
  else if n < 2048 then [192 + n / 64, 128 + n % 64]
  else if n < 65536 then [224 + n / 4096, 128 + (n / 64) % 64, 128 + n % 64]
  else [240 + n / 262144, 128 + (n / 4096) % 64, 128 + (n / 64) % 64, 128 + n % 64]

def quoteChar (c : Char) : List Char :=
  if safeQ c then [c]
  else if c == ' ' then ['+']
  else (utf8Bytes c.toNat).foldr (fun b acc => '%' :: hexDigit (b / 16) :: hexDigit (b % 16) :: acc) []

/-- `urllib.parse.quote_plus` with `safe=''`. -/
def quote_plus (s : String) : String :=
  String.mk (s.toList.foldr (fun c acc => quoteChar c ++ acc) [])

def hexVal (c : Char) : Option Nat :=
  if 48 ≤ c.toNat ∧ c.toNat ≤ 57 then some (c.toNat - 48)
  else if 65 ≤ c.toNat ∧ c.toNat ≤ 70 then some (c.toNat - 55)
  else if 97 ≤ c.toNat ∧ c.toNat ≤ 102 then some (c.toNat - 87)
  else none

/-- `unquote_plus` scanning: `+` becomes space, a valid `%XX` pair becomes
that code point, anything else stays (ASCII-exact model of CPython). -/
def unquoteChars : List Char → List Char
  | [] => []
  | '+' :: rest => ' ' :: unquoteChars rest
  | '%' :: h1 :: h2 :: rest =>
    match hexVal h1, hexVal h2 with
    | some a, some b => Char.ofNat (16 * a + b) :: unquoteChars rest
    | _, _ => '%' :: unquoteChars (h1 :: h2 :: rest)
  | c :: rest => c :: unquoteChars rest

def unquote_plus (s : String) : String := String.mk (unquoteChars s.toList)

/-- Python `str.split(sep, 1)`: the pieces before and after the first
occurrence, when one exists. -/
def splitFirst (sep : Char) : List Char → Option (List Char × List Char)
  | [] => none
  | c :: rest =>
    if c == sep then some ([], rest)
    else (splitFirst sep rest).map (fun p => (c :: p.1, p.2))

/-- One `name=value` field of the query string, as the `parse_qsl` loop
body handles it: empty fields are skipped, a field without `=` (or with
an empty value) is kept only under `keep_blank_values`, and both sides
are percent-decoded. -/
def qslField (keepBlank : Bool) (f : List Char) (acc : List (String × String)) :
    List (String × String) :=
  if f.isEmpty then acc
  else
    match splitFirst '=' f with
    | some (k, v) =>
      if !v.isEmpty || keepBlank then
        (String.mk (unquoteChars k), String.mk (unquoteChars v)) :: acc
      else acc
    | none =>
      if keepBlank then (String.mk (unquoteChars f), "") :: acc else acc

/-- `urllib.parse.parse_qsl`: split on `&` and fold the loop body. -/
def parse_qsl (keepBlank : Bool) (qs : String) : List (String × String) :=
  (splitChar '&' qs.toList).foldr (qslField keepBlank) []

/-- Insert one pair into the ordered multi-dict `parse_qs` builds. -/
def addPair (acc : List (String × List String)) (kv : String × String) : List (String × List String) :=
  if acc.any (fun p => p.1 == kv.1) then
    acc.map (fun p => if p.1 == kv.1 then (p.1, p.2 ++ [kv.2]) else p)
  else acc ++ [(kv.1, [kv.2])]

/-- `urllib.parse.parse_qs`: the pairs grouped by key, insertion-ordered. -/
def parse_qs (keepBlank : Bool) (qs : String) : List (String × List String) :=
  (parse_qsl keepBlank qs).foldl addPair []

def joinAmp : List (List Char) → List Char
  | [] => []
  | [f] => f
  | f :: rest => f ++ '&' :: joinAmp rest

/-- `urllib.parse.urlencode` with `doseq=False` on string values. -/
def urlencode (l : List (String × String)) : String :=
  String.mk (joinAmp (l.map (fun kv => (quote_plus kv.1).toList ++ '=' :: (quote_plus kv.2).toList)))

/-- The six components `urlparse` returns. -/
structure UrlParts where
  scheme : String
  netloc : String
  path : String
  params : String
  query : String
  fragment : String
deriving DecidableEq, Repr

def schemeCharB (c : Char) : Bool :=
  c.isAlphanum || c == '+' || c == '-' || c == '.'

/-- Index of the last occurrence of `c`. -/
def lastIndexOf (c : Char) (l : List Char) : Option Nat :=
  match splitFirst c l.reverse with
  | some (pre, _) => some (l.length - 1 - pre.length)
  | none => none

/-- Index of the first occurrence of `c` at or after position `start`. -/
def indexOfFrom (c : Char) (l : List Char) (start : Nat) : Option Nat :=
  (splitFirst c (l.drop start)).map (fun p => start + p.1.length)

/-- `urlparse._splitparams`, applied only when the path contains `;`. -/
def splitParams (l : List Char) : List Char × List Char :=
  if l.any (fun c => c == '/') then
    match indexOfFrom ';' l ((lastIndexOf '/' l).getD 0) with
    | some i => (l.take i, l.drop (i + 1))
    | none => (l, [])
  else
    match splitFirst ';' l with
    | some (a, b) => (a, b)
    | none => (l, [])

/-- A character that ends the network-location part. -/
def notDelim (c : Char) : Bool := c != '/' && c != '?' && c != '#'

/-- Scheme extraction step of `urlsplit`: the part before the first `:`
is taken (lower-cased) only when it starts with a letter and uses only
scheme characters. -/
def splitSchemeU (l : List Char) : List Char × List Char :=
  match splitFirst ':' l with
  | some (pre, post) =>
    match pre with
    | c :: _ => if c.isAlpha && pre.all schemeCharB then (pre.map lcC, post) else ([], l)
    | [] => ([], l)
  | none => ([], l)

/-- Netloc extraction step: when the input starts `//`, the part after it
up to the first `/`, `?` or `#` (CPython tests `url[:2] == '//'`). -/
def splitNetlocU (rest : List Char) : List Char × List Char :=
  if rest.take 2 = ['/', '/'] then
    let r := rest.drop 2
    (r.takeWhile notDelim, r.drop (r.takeWhile notDelim).length)
  else ([], rest)

/-- `l.split(sep, 1)` keeping the whole input when `sep` is absent. -/
def splitAtChar (sep : Char) (l : List Char) : List Char × List Char :=
  match splitFirst sep l with
  | some (a, b) => (a, b)
  | none => (l, [])

/-- A character `urlsplit` deletes from the URL before parsing
(`_UNSAFE_URL_BYTES_TO_REMOVE`). -/
def tabCrLf (c : Char) : Bool := c == '\t' || c == '\r' || c == '\n'

/-- The `url.replace(b, "")` loop of `urlsplit` over tab, CR and LF. -/
def dropTabCrLf (l : List Char) : List Char := l.filter (fun c => !tabCrLf c)

/-- The netloc test behind `urlsplit`'s `raise ValueError("Invalid IPv6
URL")`: a bracket of one kind without its partner. -/
def bracketBad (netloc : List Char) : Bool :=
  netloc.contains '[' && !netloc.contains ']' ||
    netloc.contains ']' && !netloc.contains '['

/-- `urlsplit` after unsafe-byte removal, plus `_splitparams`: scheme
(lower-cased, only when the part before the first `:` is a well-formed
scheme), network location after `//` — `none` for the Invalid IPv6 URL
`ValueError` on an unbalanced bracket there — then fragment, query, and
path parameters, in CPython's order.  (The non-ASCII NFKC netloc check
never fires on the ASCII inputs this development covers.) -/
def splitUrlChecked (l : List Char) : Option UrlParts :=
  let sr := splitSchemeU l
  let nr := splitNetlocU sr.2
  if bracketBad nr.1 then none
  else
    let fr := splitAtChar '#' nr.2
    let qr := splitAtChar '?' fr.1
    let pp := if qr.1.any (fun c => c == ';') then splitParams qr.1 else (qr.1, [])
    some ⟨String.mk sr.1, String.mk nr.1, String.mk pp.1, String.mk pp.2,
      String.mk qr.2, String.mk fr.2⟩

/-- `urllib.parse.urlparse`, `none` where CPython raises `ValueError`. -/
def urlparse (url : String) : Option UrlParts :=
  splitUrlChecked (dropTabCrLf url.toList)

/-- `urllib.parse.urlunparse` (via `urlunsplit`). -/
def urlunparse (u : UrlParts) : String :=
  let url0 := if u.params != "" then u.path ++ ";" ++ u.params else u.path
  let url1 :=
    if u.netloc != "" || url0.toList.take 2 == ['/', '/'] then
      "//" ++ u.netloc ++
        (if url0 != "" && url0.toList.head? != some '/' then "/" ++ url0 else url0)
    else url0
  let url2 := if u.scheme != "" then u.scheme ++ ":" ++ url1 else url1
  let url3 := if u.query != "" then url2 ++ "?" ++ u.query else url2
  if u.fragment != "" then url3 ++ "#" ++ u.fragment else url3

/-- `_normalize_search_url`: ensure `index` is a query key (default `"0"`),
re-encode keeping each parameter's last value, and fall back to `https` /
the Rightmove host for a missing scheme / netloc.  A `ValueError` from
`urlparse` propagates (`none`). -/
def _normalize_search_url (url : String) : Option String :=
  match urlparse url with
  | none => none
  | some u =>
    let q := parse_qs true u.query
    let q := if q.any (fun p => p.1 == "index") then q else q ++ [("index", ["0"])]
    let new_query := urlencode (q.map (fun kv => (kv.1, kv.2.getLastD "")))
    some (urlunparse ⟨if u.scheme == "" then "https" else u.scheme,
      if u.netloc == "" then RIGHTMOVE_HOST else u.netloc,
      u.path, u.params, new_query, u.fragment⟩)

/-- Keep only each parameter's last value, as the normalization's dict
comprehension does. -/
def lastOnly (q : List (String × List String)) : List (String × List String) :=
  q.map (fun kv => (kv.1, [kv.2.getLastD ""]))

/-- Append `index → ["0"]` when the key is absent. -/
def withIndex0 (q : List (String × List String)) : List (String × List String) :=
  if q.any (fun p => p.1 == "index") then q else q ++ [("index", ["0"])]

/-- ASCII characters other than `%` (the fragment of URL syntax on which
the percent-codec embedding is exact). -/
abbrev plainAscii (c : Char) : Prop := c.toNat < 128 ∧ c ≠ '%'

/-! ### The link collector -/

/-- `int(...)`: optional sign, digits with single interior underscores. -/
def intDigitsRest : List Char → Bool
  | [] => true
  | ['_'] => false
  | '_' :: c :: r => isDigitB c && intDigitsRest r
  | c :: r => isDigitB c && intDigitsRest r

def intDigitsOk : List Char → Bool
  | [] => false
  | c :: r => isDigitB c && intDigitsRest r

/-- Python `int(s)` on a string, `none` on `ValueError`. -/
def pyInt (s : String) : Option Int :=
  let t := (pyStrip s).toList
  let sg : Bool × List Char :=
    match t with
    | '-' :: r => (true, r)
    | '+' :: r => (false, r)
    | _ => (false, t)
  if intDigitsOk sg.2 then
    let n : Int := natOfDigits (sg.2.filter (fun c => c != '_'))
    some (if sg.1 then -n else n)
  else none

/-- What one `client.get` of a results page yields: the response status
and the listing links `_extract_links` pulls out of its body (deduplicated
absolute URLs with query and fragment stripped). -/
structure Page where
  status : Nat
  links : List String
deriving DecidableEq

/-- The running offset the collector starts from, given the already
normalized URL:
`int(parse_qs(urlparse(start_url).query).get("index", ["0"])[0])` inside
`try/except`, so any failure (including a `ValueError` from `urlparse`)
falls back to 0. -/
def startIndexOf (start_url : String) : Int :=
  match urlparse start_url with
  | none => 0
  | some u =>
    let q := parse_qs false u.query
    let v :=
      match q.find? (fun p => p.1 == "index") with
      | some kv => kv.2.headD "0"
      | none => "0"
    (pyInt v).getD 0

/-- The pagination loop of `collect_rightmove_links`: up to `fuel` result
pages; a request is issued each iteration, a non-200 status stops at once,
links are merged into the accumulated set, and an iteration that grows the
set by nothing stops; otherwise the offset advances by 24.  Returns the
final set and the list of offsets requested.  `net` is the server's
response for the results page at a given offset (all other URL parts are
fixed by the normalized search URL). -/
def collectLoop (net : Int → Page) : Nat → Int → Finset String → Finset String × List Int
  | 0, _, _acc => (_acc, [])
  | fuel + 1, index, acc =>
    let p := net index
    if p.status ≠ 200 then (acc, [index])
    else
      let acc' := acc ∪ p.links.toFinset
      if acc'.card = acc.card then (acc', [index])
      else
        let r := collectLoop net fuel (index + 24) acc'
        (r.1, index :: r.2)

/-- `collect_rightmove_links`, returning the sorted link list together
with the trace of requested offsets.  A `ValueError` from normalizing the
start URL propagates before any request (`none`); the loop body's own
`urlparse(start_url)` is not inside a `try`, so its failure also raises —
before the iteration's request — whenever at least one iteration runs. -/
def collect_rightmove_links (net : Int → Page) (search_url : String) (maxPages : Nat) :
    Option (List String × List Int) :=
  match _normalize_search_url search_url with
  | none => none
  | some start_url =>
    let index := startIndexOf start_url
    if maxPages ≠ 0 ∧ urlparse start_url = none then none
    else
      let r := collectLoop net maxPages index ∅
      some (r.1.sort (· ≤ ·), r.2)

/-- Whether a pattern records no capture group (used to reason about
which group produced a recorded capture). -/
def grpFree : RE → Bool
  | .eps => true
  | .cls _ => true
  | .seq a b => grpFree a && grpFree b
  | .alt a b => grpFree a && grpFree b
  | .opt a => grpFree a
  | .rep _ _ _ => true
  | .grp _ _ => false
  | .nw => true

/-- The links a page contributes to the accumulated set: its extracted
links on a 200 response, nothing otherwise. -/
def pageLinks (net : Int → Page) (i : Int) : Finset String :=
  if (net i).status = 200 then (net i).links.toFinset else ∅

/-- Union of the links contributed by the first `j` pages, starting at
offset `index` and stepping by 24. -/
def pagesUnion (net : Int → Page) (index : Int) : Nat → Finset String
  | 0 => ∅
  | j + 1 => pageLinks net index ∪ pagesUnion net (index + 24) j

/-! ### Concrete fixtures used to exercise the theorems -/

/-- A trivial focus-text collaborator (page with no focus blocks). -/
def gF0 : String → String := fun _ => ""

/-- A trivial image collaborator (page with no `og:image`). -/
def oI0 : String → Option String := fun _ => none

def d0 : Date := ⟨2024, 1, 1⟩

/-- Pagination fixture: page 0 has one link, later pages repeat nothing new. -/
def netW : Int → Page := fun i => if i = 0 then ⟨200, ["a"]⟩ else ⟨200, []⟩

/-- A server that always answers 201 Created. -/
def net201 : String → HttpResult := fun _ => .success 201 "x"

/-- A server whose pages carry only a relative-date phrase. -/
def netRel : String → HttpResult := fun _ => .success 200 "added 2 days ago"

def netA : String → HttpResult := fun _ => .success 200 "x"

/-- Agrees with `netA` on every URL except `"v"`. -/
def netB : String → HttpResult := fun u => if u = "v" then .success 500 "y" else .success 200 "x"

/-- Ten listing URLs for the batch scenario. -/
def urls10 : List String :=
  ["u0", "u1", "u2", "u3", "u4", "u5", "u6", "u7", "u8", "u9"]

/-- A server where exactly `"u3"` answers 404 and the rest answer 200. -/
def net10 : String → HttpResult :=
  fun u => if u = "u3" then .success 404 "gone" else .success 200 "a page"

example : _extract_charges "Service Charge And Ground Rent Approx £95 PCM" =
    (some "£95 PCM (combined)", none) := by decide
example : _norm_date_dmy "05/01/24" = some "2024-01-05" := by decide
example : _norm_date_dmy "31/02/24" = none := by decide
example : _norm_date_dmy "05/01/999" = none := by decide
example : _norm_date_dmy "05/01/0999" = some "999-01-05" := by decide
example : (parse_added_reduced ⟨2024, 3, 15⟩ "was added 3 days ago").1 = some "2024-03-12" := by decide
example : (parse_added_reduced ⟨2024, 3, 15⟩ "Added on 05/01/24 added yesterday").1 = some "2024-01-05" := by decide
example : (parse_added_reduced ⟨2024, 3, 15⟩ "Added on 31/02/24 added today").1 = some "2024-03-15" := by decide
example : normPostcode "nr1  2ab" = "NR1 2AB" := by decide
example : normPostcode "nr1   2ab" = "NR1  2AB" := by decide
example : _normalize_search_url "https://www.rightmove.co.uk/find.html?a=1&a=2&b=x" =
    some "https://www.rightmove.co.uk/find.html?a=2&b=x&index=0" := by decide
example : _normalize_search_url "find.html?index=24" =
    some "https://www.rightmove.co.uk/find.html?index=24" := by decide
example : _normalize_search_url "find.html?index=2\t4" =
    some "https://www.rightmove.co.uk/find.html?index=24" := by decide
example : _normalize_search_url "http://[::1/p" = none := by decide
example : startIndexOf "https://h/p?index=24" = 24 := by decide
example : (collectLoop (fun i => if i == 0 then ⟨200, ["b", "a"]⟩ else ⟨200, ["a"]⟩) 5 0 ∅).2 =
    [0, 24] := by decide

/-! ## Lemmas about the pagination loop -/

theorem pagesUnion_succ (net : Int → Page) : ∀ (j : Nat) (index : Int),
    pagesUnion net index (j + 1) = pagesUnion net index j ∪ pageLinks net (index + 24 * (j : Int)) := by
  intro j
  induction j with
  | zero => intro index; simp [pagesUnion]
  | succ j ih =>
    intro index
    have harith : (index + 24) + 24 * (j : Int) = index + 24 * ((j : Nat) + 1 : Int) := by ring
    calc pagesUnion net index (j + 2)
        = pageLinks net index ∪ pagesUnion net (index + 24) (j + 1) := rfl
      _ = pageLinks net index ∪ (pagesUnion net (index + 24) j ∪ pageLinks net ((index + 24) + 24 * (j : Int))) := by
            rw [ih]
      _ = pagesUnion net index (j + 1) ∪ pageLinks net ((index + 24) + 24 * (j : Int)) := by
            rw [← Finset.union_assoc]; rfl
      _ = pagesUnion net index (j + 1) ∪ pageLinks net (index + 24 * ((j : Nat) + 1 : Int)) := by
            rw [harith]

theorem collectLoop_zero (net : Int → Page) (index : Int) (acc : Finset String) :
    collectLoop net 0 index acc = (acc, []) := rfl

theorem collectLoop_succ_stop (net : Int → Page) (fuel : Nat) (index : Int) (acc : Finset String)
    (h : (net index).status ≠ 200) :
    collectLoop net (fuel + 1) index acc = (acc, [index]) := by
  simp [collectLoop, h]

theorem collectLoop_succ_nonew (net : Int → Page) (fuel : Nat) (index : Int) (acc : Finset String)
    (h : (net index).status = 200)
    (h2 : (acc ∪ (net index).links.toFinset).card = acc.card) :
    collectLoop net (fuel + 1) index acc = (acc ∪ (net index).links.toFinset, [index]) := by
  simp [collectLoop, h, h2]

theorem collectLoop_succ_cont (net : Int → Page) (fuel : Nat) (index : Int) (acc : Finset String)
    (h : (net index).status = 200)
    (h2 : (acc ∪ (net index).links.toFinset).card ≠ acc.card) :
    collectLoop net (fuel + 1) index acc =
      ((collectLoop net fuel (index + 24) (acc ∪ (net index).links.toFinset)).1,
        index :: (collectLoop net fuel (index + 24) (acc ∪ (net index).links.toFinset)).2) := by
  simp [collectLoop, h, h2]

theorem subset_of_card_union_eq {s t : Finset String} (h : (s ∪ t).card = s.card) : t ⊆ s := by
  have hs : s ∪ t = s :=
    (Finset.eq_of_subset_of_card_le (Finset.subset_union_left : s ⊆ s ∪ t)
      (le_of_eq h : (s ∪ t).card ≤ s.card)).symm
  exact Finset.union_eq_left.mp hs

theorem not_subset_of_card_union_ne {s t : Finset String} (h : (s ∪ t).card ≠ s.card) : ¬ t ⊆ s := by
  intro hsub
  exact h (by rw [Finset.union_eq_left.mpr hsub])

/-- The offsets requested are `index, index+24, index+48, …`. -/
theorem collectLoop_trace (net : Int → Page) : ∀ (fuel : Nat) (index : Int) (acc : Finset String),
    (collectLoop net fuel index acc).2 =
      (List.range (collectLoop net fuel index acc).2.length).map
        (fun (k : Nat) => index + 24 * (k : Int)) := by
  intro fuel
  induction fuel with
  | zero => intro index acc; simp [collectLoop_zero]
  | succ fuel ih =>
    intro index acc
    by_cases h : (net index).status = 200
    · by_cases h2 : (acc ∪ (net index).links.toFinset).card = acc.card
      · rw [collectLoop_succ_nonew net fuel index acc h h2]
        simp [List.range_succ]
      · rw [collectLoop_succ_cont net fuel index acc h h2]
        have ih' := ih (index + 24) (acc ∪ (net index).links.toFinset)
        simp only [List.length_cons, List.range_succ_eq_map, List.map_cons, List.map_map]
        refine List.cons_eq_cons.mpr ⟨by simp, ?_⟩
        refine ih'.trans ?_
        refine List.map_congr_left ?_
        intro k _
        simp only [Function.comp_apply]
        push_cast
        ring
    · rw [collectLoop_succ_stop net fuel index acc h]
      simp [List.range_succ]

/-- Never more requests than the fuel allows. -/
theorem collectLoop_len_le (net : Int → Page) : ∀ (fuel : Nat) (index : Int) (acc : Finset String),
    (collectLoop net fuel index acc).2.length ≤ fuel := by
  intro fuel
  induction fuel with
  | zero => intro index acc; simp [collectLoop_zero]
  | succ fuel ih =>
    intro index acc
    by_cases h : (net index).status = 200
    · by_cases h2 : (acc ∪ (net index).links.toFinset).card = acc.card
      · rw [collectLoop_succ_nonew net fuel index acc h h2]; simp
      · rw [collectLoop_succ_cont net fuel index acc h h2]
        simpa using Nat.succ_le_succ (ih (index + 24) (acc ∪ (net index).links.toFinset))
    · rw [collectLoop_succ_stop net fuel index acc h]; simp

/-- With fuel left, the first iteration always issues its request. -/
theorem collectLoop_len_pos (net : Int → Page) (fuel : Nat) (index : Int) (acc : Finset String)
    (h : 0 < fuel) : 0 < (collectLoop net fuel index acc).2.length := by
  cases fuel with
  | zero => exact absurd h (by simp)
  | succ fuel =>
    by_cases hs : (net index).status = 200
    · by_cases h2 : (acc ∪ (net index).links.toFinset).card = acc.card
      · rw [collectLoop_succ_nonew net fuel index acc hs h2]; simp
      · rw [collectLoop_succ_cont net fuel index acc hs h2]; simp
    · rw [collectLoop_succ_stop net fuel index acc hs]; simp

/-- The final set is the start set plus every fetched page's contribution. -/
theorem collectLoop_fst (net : Int → Page) : ∀ (fuel : Nat) (index : Int) (acc : Finset String),
    (collectLoop net fuel index acc).1 =
      acc ∪ pagesUnion net index (collectLoop net fuel index acc).2.length := by
  intro fuel
  induction fuel with
  | zero => intro index acc; simp [collectLoop_zero, pagesUnion]
  | succ fuel ih =>
    intro index acc
    by_cases h : (net index).status = 200
    · by_cases h2 : (acc ∪ (net index).links.toFinset).card = acc.card
      · rw [collectLoop_succ_nonew net fuel index acc h h2]
        simp only [List.length_cons, List.length_nil]
        show acc ∪ (net index).links.toFinset = acc ∪ pagesUnion net index 1
        simp [pagesUnion, pageLinks, h]
      · rw [collectLoop_succ_cont net fuel index acc h h2]
        have ih' := ih (index + 24) (acc ∪ (net index).links.toFinset)
        simp only [List.length_cons]
        rw [ih']
        show acc ∪ (net index).links.toFinset ∪
            pagesUnion net (index + 24) (collectLoop net fuel (index + 24) (acc ∪ (net index).links.toFinset)).2.length =
          acc ∪ pagesUnion net index ((collectLoop net fuel (index + 24) (acc ∪ (net index).links.toFinset)).2.length + 1)
        have : pagesUnion net index ((collectLoop net fuel (index + 24) (acc ∪ (net index).links.toFinset)).2.length + 1) =
            pageLinks net index ∪ pagesUnion net (index + 24) (collectLoop net fuel (index + 24) (acc ∪ (net index).links.toFinset)).2.length := rfl
        rw [this, pageLinks, if_pos h, Finset.union_assoc]
    · rw [collectLoop_succ_stop net fuel index acc h]
      simp only [List.length_cons, List.length_nil]
      show acc = acc ∪ pagesUnion net index 1
      simp [pagesUnion, pageLinks, h]

/-- When the loop stops strictly before exhausting its fuel, the last page
requested either answered non-200 or contributed nothing new. -/
theorem collectLoop_stop (net : Int → Page) : ∀ (fuel : Nat) (index : Int) (acc : Finset String)
    (n : Nat), (collectLoop net fuel index acc).2.length = n + 1 → n + 1 < fuel →
    (net (index + 24 * (n : Int))).status ≠ 200 ∨
      pageLinks net (index + 24 * (n : Int)) ⊆ acc ∪ pagesUnion net index n := by
  intro fuel
  induction fuel with
  | zero => intro index acc n _ hlt; omega
  | succ fuel ih =>
    intro index acc n hlen hlt
    by_cases h : (net index).status = 200
    · by_cases h2 : (acc ∪ (net index).links.toFinset).card = acc.card
      · rw [collectLoop_succ_nonew net fuel index acc h h2] at hlen
        simp at hlen
        subst hlen
        right
        simp only [Nat.cast_zero, mul_zero, add_zero, pagesUnion, Finset.union_empty]
        rw [pageLinks, if_pos h]
        exact subset_of_card_union_eq h2
      · rw [collectLoop_succ_cont net fuel index acc h h2] at hlen
        simp only [List.length_cons, Nat.add_right_cancel_iff] at hlen
        have hfuel : 0 < fuel := by omega
        have hpos := collectLoop_len_pos net fuel (index + 24) (acc ∪ (net index).links.toFinset) hfuel
        obtain ⟨m, hm⟩ : ∃ m, n = m + 1 := ⟨n - 1, by omega⟩
        subst hm
        have ihm := ih (index + 24) (acc ∪ (net index).links.toFinset) m (by omega) (by omega)
        have hoff : (index + 24) + 24 * (m : Int) = index + 24 * ((m + 1 : Nat) : Int) := by
          push_cast; ring
        have hacc : (acc ∪ (net index).links.toFinset) ∪ pagesUnion net (index + 24) m =
            acc ∪ pagesUnion net index (m + 1) := by
          show _ = acc ∪ (pageLinks net index ∪ pagesUnion net (index + 24) m)
          rw [pageLinks, if_pos h, Finset.union_assoc]
        rw [hoff, hacc] at ihm
        exact ihm
    · rw [collectLoop_succ_stop net fuel index acc h] at hlen
      simp at hlen
      subst hlen
      left
      simpa using h

/-- Every page except possibly the last answered 200 and contributed at
least one new link (the loop never keeps fetching past a stopping page). -/
theorem collectLoop_progress (net : Int → Page) : ∀ (fuel : Nat) (index : Int) (acc : Finset String)
    (j : Nat), j + 1 < (collectLoop net fuel index acc).2.length →
    (net (index + 24 * (j : Int))).status = 200 ∧
      ¬ pageLinks net (index + 24 * (j : Int)) ⊆ acc ∪ pagesUnion net index j := by
  intro fuel
  induction fuel with
  | zero =>
    intro index acc j hj
    rw [collectLoop_zero] at hj
    simp at hj
  | succ fuel ih =>
    intro index acc j hj
    by_cases h : (net index).status = 200
    · by_cases h2 : (acc ∪ (net index).links.toFinset).card = acc.card
      · rw [collectLoop_succ_nonew net fuel index acc h h2] at hj
        simp at hj
      · rw [collectLoop_succ_cont net fuel index acc h h2] at hj
        simp only [List.length_cons] at hj
        cases j with
        | zero =>
          refine ⟨by simpa using h, ?_⟩
          simp only [Nat.cast_zero, mul_zero, add_zero, pagesUnion, Finset.union_empty]
          rw [pageLinks, if_pos h]
          exact not_subset_of_card_union_ne h2
        | succ k =>
          have ihk := ih (index + 24) (acc ∪ (net index).links.toFinset) k (by omega)
          have hoff : (index + 24) + 24 * (k : Int) = index + 24 * ((k + 1 : Nat) : Int) := by
            push_cast; ring
          have hacc : (acc ∪ (net index).links.toFinset) ∪ pagesUnion net (index + 24) k =
              acc ∪ pagesUnion net index (k + 1) := by
            show _ = acc ∪ (pageLinks net index ∪ pagesUnion net (index + 24) k)
            rw [pageLinks, if_pos h, Finset.union_assoc]
          rw [hoff, hacc] at ihk
          exact ihk
    · rw [collectLoop_succ_stop net fuel index acc h] at hj
      simp at hj

/-- C1 counterexample.  The claim quantifies over every search URL and
promises exactly one request at page ceiling 1; but an unbalanced bracket
in the host makes urllib raise `ValueError: Invalid IPv6 URL` inside
`_normalize_search_url`, so the collector raises before issuing any
request — zero requests, not one. -/
theorem C1_counterexample :
    _normalize_search_url "http://[::1/p" = none ∧
    collect_rightmove_links netW "http://[::1/p" 1 = none := by decide

/-- C1 (amended).  Whenever the start URL normalizes without a
`ValueError` (urllib first strips tab/CR/LF and rejects an
unbalanced-bracket netloc), the link collector fetches results pages
sequentially at offsets `start, start+24, start+48, …` (`start` read
from the normalized URL); it never issues more requests than the page
ceiling and issues exactly one when the ceiling is 1; when it stops
before the ceiling, the last page fetched either answered non-200 or
contributed zero new links to the accumulated set; every earlier page
answered 200 and contributed new links (so the loop stops as soon as a
page yields nothing new); and the returned sequence is the sorted,
duplicate-free union of the links of all pages fetched. -/
theorem C1_collector_pagination (net : Int → Page) (surl start_url : String) (maxPages : Nat)
    (out : List String) (reqs : List Int)
    (hnorm : _normalize_search_url surl = some start_url)
    (hrun : collect_rightmove_links net surl maxPages = some (out, reqs)) :
    reqs = (List.range reqs.length).map
      (fun (k : Nat) => startIndexOf start_url + 24 * (k : Int)) ∧
    reqs.length ≤ maxPages ∧
    (maxPages = 1 → reqs.length = 1) ∧
    List.Sorted (· ≤ ·) out ∧
    out.Nodup ∧
    (∀ x, x ∈ out ↔ x ∈ pagesUnion net (startIndexOf start_url) reqs.length) ∧
    (∀ n : Nat, reqs.length = n + 1 → n + 1 < maxPages →
      (net (startIndexOf start_url + 24 * (n : Int))).status ≠ 200 ∨
        pageLinks net (startIndexOf start_url + 24 * (n : Int)) ⊆
          pagesUnion net (startIndexOf start_url) n) ∧
    (∀ j : Nat, j + 1 < reqs.length →
      (net (startIndexOf start_url + 24 * (j : Int))).status = 200 ∧
        ¬ pageLinks net (startIndexOf start_url + 24 * (j : Int)) ⊆
          pagesUnion net (startIndexOf start_url) j) := by
  unfold collect_rightmove_links at hrun
  rw [hnorm] at hrun
  have hrun2 : (if maxPages ≠ 0 ∧ urlparse start_url = none then none
      else some (((collectLoop net maxPages (startIndexOf start_url) ∅).1).sort (· ≤ ·),
        (collectLoop net maxPages (startIndexOf start_url) ∅).2)) = some (out, reqs) := hrun
  by_cases hg : maxPages ≠ 0 ∧ urlparse start_url = none
  · rw [if_pos hg] at hrun2
    simp at hrun2
  · rw [if_neg hg] at hrun2
    have hout : ((collectLoop net maxPages (startIndexOf start_url) ∅).1).sort (· ≤ ·) = out :=
      congrArg Prod.fst (Option.some_inj.mp hrun2)
    have hreqs : (collectLoop net maxPages (startIndexOf start_url) ∅).2 = reqs :=
      congrArg Prod.snd (Option.some_inj.mp hrun2)
    subst hout
    subst hreqs
    refine ⟨collectLoop_trace net maxPages (startIndexOf start_url) ∅,
      collectLoop_len_le net maxPages (startIndexOf start_url) ∅, ?_, ?_, ?_, ?_, ?_, ?_⟩
    · intro h1
      subst h1
      have := collectLoop_len_pos net 1 (startIndexOf start_url) ∅ (by omega)
      have := collectLoop_len_le net 1 (startIndexOf start_url) ∅
      omega
    · exact Finset.sort_sorted (· ≤ ·) _
    · exact Finset.sort_nodup (· ≤ ·) _
    · intro x
      rw [Finset.mem_sort, collectLoop_fst net maxPages (startIndexOf start_url) ∅]
      simp
    · intro n hlen hlt
      have := collectLoop_stop net maxPages (startIndexOf start_url) ∅ n hlen hlt
      simpa using this
    · intro j hj
      have := collectLoop_progress net maxPages (startIndexOf start_url) ∅ j hj
      simpa using this

/-- Witness for C1 (amended) at a concrete server: the start URL
normalizes successfully, at most five and exactly two requests go out
against ceiling 5 (the second page adds nothing new), exactly one against
ceiling 1, and the early stop was for lack of new links. -/
theorem C1_collector_pagination_witness :
    (_normalize_search_url "q?x=1" = some "https://www.rightmove.co.uk/q?x=1&index=0") ∧
    ((collect_rightmove_links netW "q?x=1" 5).getD ([], [])).2.length ≤ 5 ∧
    ((collect_rightmove_links netW "q?x=1" 1).getD ([], [])).2.length = 1 ∧
    ((netW (startIndexOf "https://www.rightmove.co.uk/q?x=1&index=0" +
        24 * ((1 : Nat) : Int))).status ≠ 200 ∨
      pageLinks netW (startIndexOf "https://www.rightmove.co.uk/q?x=1&index=0" +
          24 * ((1 : Nat) : Int)) ⊆
        pagesUnion netW (startIndexOf "https://www.rightmove.co.uk/q?x=1&index=0") 1) ∧
    ("a" ∈ ((collect_rightmove_links netW "q?x=1" 5).getD ([], [])).1 ↔
      "a" ∈ pagesUnion netW (startIndexOf "https://www.rightmove.co.uk/q?x=1&index=0")
        ((collect_rightmove_links netW "q?x=1" 5).getD ([], [])).2.length) := by
  have h5 := C1_collector_pagination netW "q?x=1"
    "https://www.rightmove.co.uk/q?x=1&index=0" 5
    ((collect_rightmove_links netW "q?x=1" 5).getD ([], [])).1
    ((collect_rightmove_links netW "q?x=1" 5).getD ([], [])).2
    (by decide) rfl
  have h1 := C1_collector_pagination netW "q?x=1"
    "https://www.rightmove.co.uk/q?x=1&index=0" 1
    ((collect_rightmove_links netW "q?x=1" 1).getD ([], [])).1
    ((collect_rightmove_links netW "q?x=1" 1).getD ([], [])).2
    (by decide) rfl
  exact ⟨by decide, h5.2.1, h1.2.2.1 rfl,
    h5.2.2.2.2.2.2.1 1 (by decide) (by decide),
    h5.2.2.2.2.2.1 "a"⟩

/-! ## The detail batch -/

theorem parse_text_fields_error (gF : String → String) (oI : String → Option String)
    (today : Date) (html : String) : (parse_text_fields gF oI today html).error = none := rfl

theorem parse_text_fields_postcode (gF : String → String) (oI : String → Option String)
    (today : Date) (html : String) :
    (parse_text_fields gF oI today html).postcode =
      (_POSTCODE_RE.search html).bind (fun cp => (grpStr cp 1).map normPostcode) := by
  cases h : _POSTCODE_RE.search html <;> simp [parse_text_fields, h]

theorem parse_text_fields_lease (gF : String → String) (oI : String → Option String)
    (today : Date) (html : String) :
    (parse_text_fields gF oI today html).lease_years =
      (_LEASE_YEARS_RE.search html).bind (fun cp => (grpStr cp 1).map (fun g => natOfDigits g.toList)) := by
  cases h : _LEASE_YEARS_RE.search html <;> simp [parse_text_fields, h]

theorem parse_text_fields_added (gF : String → String) (oI : String → Option String)
    (today : Date) (html : String) :
    (parse_text_fields gF oI today html).added_on = (parse_added_reduced today html).1 := rfl

theorem parse_text_fields_charges (gF : String → String) (oI : String → Option String)
    (today : Date) (html : String) :
    (parse_text_fields gF oI today html).service_charge = (_extract_charges (gF html)).1 ∧
    (parse_text_fields gF oI today html).ground_rent = (_extract_charges (gF html)).2 := ⟨rfl, rfl⟩

theorem errorRecord_spec (url msg : String) :
    (errorRecord url msg).url = url ∧ (errorRecord url msg).error = some msg ∧
    (errorRecord url msg).price_gbp = none ∧ (errorRecord url msg).bedrooms = none ∧
    (errorRecord url msg).postcode = none ∧ (errorRecord url msg).tenure = none ∧
    (errorRecord url msg).lease_years = none ∧ (errorRecord url msg).service_charge = none ∧
    (errorRecord url msg).ground_rent = none ∧ (errorRecord url msg).availability = none ∧
    (errorRecord url msg).added_on = none ∧ (errorRecord url msg).reduced_on = none ∧
    (errorRecord url msg).image_url = none := by
  exact ⟨rfl, rfl, rfl, rfl, rfl, rfl, rfl, rfl, rfl, rfl, rfl, rfl, rfl⟩

theorem fetch_one_success (gF : String → String) (oI : String → Option String) (today : Date)
    (net : String → HttpResult) (url : String) (status : Nat) (text : String)
    (hnet : net url = HttpResult.success status text) :
    fetch_one gF oI today net url =
      (if status = 200 then { parse_text_fields gF oI today text with url := url }
       else errorRecord url ("HTTP " ++ toString status)) := by
  have hred : fetch_one gF oI today net url =
      (if (status != 200) = true then errorRecord url ("HTTP " ++ toString status)
       else { parse_text_fields gF oI today text with url := url }) := by
    unfold fetch_one
    rw [hnet]
  rw [hred]
  by_cases hs : status = 200
  · subst hs; simp
  · simp [hs]

theorem fetch_one_failure (gF : String → String) (oI : String → Option String) (today : Date)
    (net : String → HttpResult) (url : String) (msg : String)
    (hnet : net url = HttpResult.failure msg) :
    fetch_one gF oI today net url = errorRecord url msg := by
  unfold fetch_one
  rw [hnet]

/-- C10.  A fetched URL yields a record with extracted fields exactly when
its status is 200: every other status — other 2xx codes included — yields
the error record `HTTP <status>`.  Likewise the link collector never
requests a further page after a response whose status is not exactly 200. -/
theorem C10_only_200_succeeds :
    (∀ (gF : String → String) (oI : String → Option String) (today : Date)
        (net : String → HttpResult) (url : String) (status : Nat) (text : String),
      net url = HttpResult.success status text →
      (((fetch_one gF oI today net url).error = none) ↔ status = 200) ∧
      (status ≠ 200 → fetch_one gF oI today net url = errorRecord url ("HTTP " ++ toString status)) ∧
      (status = 200 → fetch_one gF oI today net url =
        { parse_text_fields gF oI today text with url := url })) ∧
    (∀ (net : Int → Page) (surl start_url : String) (maxPages : Nat) (out : List String)
        (reqs : List Int) (j : Nat),
      _normalize_search_url surl = some start_url →
      collect_rightmove_links net surl maxPages = some (out, reqs) →
      j + 1 < reqs.length →
      (net (startIndexOf start_url + 24 * (j : Int))).status = 200) := by
  constructor
  · intro gF oI today net url status text hnet
    rw [fetch_one_success gF oI today net url status text hnet]
    by_cases hs : status = 200
    · subst hs
      refine ⟨?_, fun h => absurd rfl h, fun _ => by simp⟩
      simp [parse_text_fields_error]
    · rw [if_neg hs]
      refine ⟨?_, fun _ => rfl, fun h => absurd h hs⟩
      simp [errorRecord, hs]
  · intro net surl start_url maxPages out reqs j hnorm hrun hj
    unfold collect_rightmove_links at hrun
    rw [hnorm] at hrun
    have hrun2 : (if maxPages ≠ 0 ∧ urlparse start_url = none then none
        else some (((collectLoop net maxPages (startIndexOf start_url) ∅).1).sort (· ≤ ·),
          (collectLoop net maxPages (startIndexOf start_url) ∅).2)) = some (out, reqs) := hrun
    by_cases hg : maxPages ≠ 0 ∧ urlparse start_url = none
    · rw [if_pos hg] at hrun2
      simp at hrun2
    · rw [if_neg hg] at hrun2
      have hreqs : (collectLoop net maxPages (startIndexOf start_url) ∅).2 = reqs :=
        congrArg Prod.snd (Option.some_inj.mp hrun2)
      rw [← hreqs] at hj
      exact (collectLoop_progress net maxPages (startIndexOf start_url) ∅ j hj).1

/-- Witness for C10: a 201 Created answer for one URL becomes the error
record `HTTP 201`, and in a concrete paginated run the page before the
last requested page answered 200. -/
theorem C10_only_200_succeeds_witness :
    fetch_one gF0 oI0 d0 net201 "u" = errorRecord "u" "HTTP 201" ∧
    (net201 "u" = HttpResult.success 201 "x") ∧
    (netW (startIndexOf "https://www.rightmove.co.uk/q?x=1&index=0" +
      24 * ((0 : Nat) : Int))).status = 200 := by
  refine ⟨(C10_only_200_succeeds.1 gF0 oI0 d0 net201 "u" 201 "x" rfl).2.1 (by decide), rfl, ?_⟩
  exact C10_only_200_succeeds.2 netW "q?x=1" "https://www.rightmove.co.uk/q?x=1&index=0" 5
    ((collect_rightmove_links netW "q?x=1" 5).getD ([], [])).1
    ((collect_rightmove_links netW "q?x=1" 5).getD ([], [])).2
    0 (by decide) rfl (by decide)

/-- C2.  A non-2xx response for one URL yields exactly
`{url, error: "HTTP <status>"}`; a raised transport exception yields
exactly `{url, error: <message>}` (so it never escapes the batch); an
error record carries no extracted fields; and every URL's record is a
function of that URL's own response only, one record per input URL. -/
theorem C2_error_isolation :
    (∀ (gF : String → String) (oI : String → Option String) (today : Date)
        (net : String → HttpResult) (url : String) (status : Nat) (text : String),
      net url = HttpResult.success status text → ¬(200 ≤ status ∧ status < 300) →
      fetch_one gF oI today net url = errorRecord url ("HTTP " ++ toString status)) ∧
    (∀ (gF : String → String) (oI : String → Option String) (today : Date)
        (net : String → HttpResult) (url : String) (msg : String),
      net url = HttpResult.failure msg →
      fetch_one gF oI today net url = errorRecord url msg) ∧
    (∀ url msg : String,
      (errorRecord url msg).url = url ∧ (errorRecord url msg).error = some msg ∧
      (errorRecord url msg).price_gbp = none ∧ (errorRecord url msg).bedrooms = none ∧
      (errorRecord url msg).postcode = none ∧ (errorRecord url msg).tenure = none ∧
      (errorRecord url msg).lease_years = none ∧ (errorRecord url msg).service_charge = none ∧
      (errorRecord url msg).ground_rent = none ∧ (errorRecord url msg).availability = none ∧
      (errorRecord url msg).added_on = none ∧ (errorRecord url msg).reduced_on = none ∧
      (errorRecord url msg).image_url = none) ∧
    (∀ (gF : String → String) (oI : String → Option String) (today : Date)
        (net : String → HttpResult) (urls : List String),
      (scrape_details_async gF oI today net urls).length = urls.length ∧
      ∀ i : Nat, (scrape_details_async gF oI today net urls)[i]? =
        urls[i]?.map (fetch_one gF oI today net)) := by
  refine ⟨?_, ?_, errorRecord_spec, ?_⟩
  · intro gF oI today net url status text hnet hnon
    rw [fetch_one_success gF oI today net url status text hnet, if_neg]
    intro h
    exact hnon (by omega)
  · intro gF oI today net url msg hnet
    exact fetch_one_failure gF oI today net url msg hnet
  · intro gF oI today net urls
    refine ⟨List.length_map _ _, fun i => ?_⟩
    exact List.getElem?_map _ _ _

/-- Witness for C2: a 404 answer becomes `HTTP 404`, a raised exception
message is kept verbatim, and in a two-URL batch the healthy URL's record
is untouched by its sibling's failure. -/
theorem C2_error_isolation_witness :
    fetch_one gF0 oI0 d0 net10 "u3" = errorRecord "u3" "HTTP 404" ∧
    fetch_one gF0 oI0 d0 (fun _ => .failure "boom") "u" = errorRecord "u" "boom" ∧
    (scrape_details_async gF0 oI0 d0 net10 ["u3", "u4"])[1]? =
      some (fetch_one gF0 oI0 d0 net10 "u4") := by
  refine ⟨C2_error_isolation.1 gF0 oI0 d0 net10 "u3" 404 "gone" rfl (by decide),
    C2_error_isolation.2.1 gF0 oI0 d0 (fun _ => .failure "boom") "u" "boom" rfl, ?_⟩
  have h := (C2_error_isolation.2.2.2 gF0 oI0 d0 net10 ["u3", "u4"]).2 1
  rw [h]
  rfl

/-- C3 counterexample.  The claim says the detail batch gives identical
records for identical URL lists and responses regardless of when it runs;
but a body with only a relative date phrase makes the record depend on
the ambient current date, so two runs on different days differ. -/
theorem C3_counterexample :
    scrape_details_async gF0 oI0 ⟨2024, 1, 10⟩ netRel ["u"] ≠
      scrape_details_async gF0 oI0 ⟨2024, 1, 11⟩ netRel ["u"] := by
  decide

/-- C3 (amended).  For a fixed current date the batch depends only on the
URL list and each listed URL's response, and the link collector depends
only on its input and the server's responses: both are deterministic. -/
theorem C3_determinism (gF : String → String) (oI : String → Option String) (today : Date)
    (net₁ net₂ : String → HttpResult) (urls : List String)
    (h : ∀ u ∈ urls, net₁ u = net₂ u) :
    scrape_details_async gF oI today net₁ urls = scrape_details_async gF oI today net₂ urls ∧
    ∀ (cn₁ cn₂ : Int → Page) (surl : String) (mp : Nat), (∀ i, cn₁ i = cn₂ i) →
      collect_rightmove_links cn₁ surl mp = collect_rightmove_links cn₂ surl mp := by
  constructor
  · refine List.map_congr_left ?_
    intro u hu
    unfold fetch_one
    rw [h u hu]
  · intro cn₁ cn₂ surl mp hi
    have : cn₁ = cn₂ := funext hi
    rw [this]

/-- Witness for C3 (amended): two servers that agree on the listed URL
(and differ elsewhere) give the same batch, and two identical page
servers give the same collection. -/
theorem C3_determinism_witness :
    scrape_details_async gF0 oI0 d0 netA ["u"] = scrape_details_async gF0 oI0 d0 netB ["u"] ∧
    collect_rightmove_links netW "q" 3 = collect_rightmove_links netW "q" 3 := by
  have h := C3_determinism gF0 oI0 d0 netA netB ["u"] (by decide)
  exact ⟨h.1, h.2 netW netW "q" 3 (fun _ => rfl)⟩

/-! ## Bounded concurrency -/

theorem countP_set_add {α : Type} (p : α → Bool) :
    ∀ (l : List α) (i : Nat) (b : α), l[i]? = some b → ∀ a : α,
    (l.set i a).countP p + (if p b then 1 else 0) = l.countP p + (if p a then 1 else 0) := by
  intro l
  induction l with
  | nil => intro i b h a; simp at h
  | cons x xs ih =>
    intro i b h a
    cases i with
    | zero =>
      simp only [List.getElem?_cons_zero, Option.some.injEq] at h
      subst h
      simp only [List.set_cons_zero, List.countP_cons]
      omega
    | succ i =>
      simp only [List.getElem?_cons_succ] at h
      have := ih i b h a
      simp only [List.set_cons_succ, List.countP_cons]
      omega

theorem countP_replicate_waiting (k : Nat) :
    (List.replicate k TaskPhase.waiting).countP TaskPhase.isRunning = 0 := by
  induction k with
  | zero => rfl
  | succ k ih => simp [List.replicate_succ, List.countP_cons, TaskPhase.isRunning, ih]

/-- One step preserves the semaphore accounting. -/
theorem batchStep_preserves (n : Nat) {s t : BatchState} (h : BatchStep s t)
    (hinv : s.sem + inFlight s = n) : t.sem + inFlight t = n := by
  cases h with
  | acquire i hi hs =>
    have hcnt := countP_set_add TaskPhase.isRunning s.tasks i TaskPhase.waiting hi TaskPhase.running
    simp [TaskPhase.isRunning] at hcnt
    simp only [inFlight] at hinv ⊢
    omega
  | release i hi =>
    have hcnt := countP_set_add TaskPhase.isRunning s.tasks i TaskPhase.running hi TaskPhase.finished
    simp [TaskPhase.isRunning] at hcnt
    simp only [inFlight] at hinv ⊢
    omega

/-- The semaphore invariant: its value plus the requests in flight is the
concurrency bound, throughout the run. -/
theorem reachable_sem_invariant (n k : Nat) : ∀ s, Reachable n k s →
    s.sem + inFlight s = n := by
  intro s h
  induction h with
  | refl => simp [initState, inFlight, countP_replicate_waiting]
  | tail hsteps hstep ih => exact batchStep_preserves n hstep ih

/-- C9.  Under the semaphore discipline no reachable state of the batch
has more than `n` fetches in flight; and on ten URLs of which exactly one
answers 404, the batch produces one `HTTP 404` error record for that URL
and an independent per-URL record for each of the other nine. -/
theorem C9_bounded_concurrency :
    (∀ (n k : Nat) (s : BatchState), Reachable n k s → inFlight s ≤ n) ∧
    (∀ (gF : String → String) (oI : String → Option String) (today : Date),
      (scrape_details_async gF oI today net10 urls10).length = 10 ∧
      (scrape_details_async gF oI today net10 urls10).countP (fun r => r.error.isSome) = 1 ∧
      (scrape_details_async gF oI today net10 urls10)[3]? = some (errorRecord "u3" "HTTP 404") ∧
      (∀ i : Nat, (scrape_details_async gF oI today net10 urls10)[i]? =
        urls10[i]?.map (fetch_one gF oI today net10))) := by
  constructor
  · intro n k s h
    have := reachable_sem_invariant n k s h
    omega
  · intro gF oI today
    have hf : ∀ u, fetch_one gF oI today net10 u =
        if u = "u3" then errorRecord "u3" "HTTP 404"
        else { parse_text_fields gF oI today "a page" with url := u } := by
      intro u
      by_cases hu : u = "u3"
      · subst hu
        rw [fetch_one_success gF oI today net10 "u3" 404 "gone" rfl]
        rw [if_neg (show (404 : Nat) ≠ 200 by decide), if_pos rfl]
        decide
      · rw [fetch_one_success gF oI today net10 u 200 "a page" (by simp [net10, hu])]
        simp [hu]
    refine ⟨?_, ?_, ?_, ?_⟩
    · simp [scrape_details_async, urls10]
    · simp [scrape_details_async, urls10, hf, List.countP_cons, errorRecord,
        parse_text_fields_error]
    · simp [scrape_details_async, urls10, hf]
    · intro i
      exact List.getElem?_map _ _ _

/-- Witness for C9: the initial state with bound 3 and ten tasks is
reachable and respects the bound, and the concrete ten-URL batch shows
exactly one error record. -/
theorem C9_bounded_concurrency_witness :
    inFlight (initState 3 10) ≤ 3 ∧
    (scrape_details_async gF0 oI0 d0 net10 urls10).countP (fun r => r.error.isSome) = 1 := by
  exact ⟨C9_bounded_concurrency.1 3 10 (initState 3 10) Relation.ReflTransGen.refl,
    (C9_bounded_concurrency.2 gF0 oI0 d0).2.1⟩

/-! ## Charges and dates -/

/-- C4.  On any focus text, a combined-charge match makes charge
extraction return `£<amount> <period> (combined)` with the period
defaulting to `per year` and the matched token kept verbatim, with ground
rent absent; without a combined match the two charges are searched
independently and formatted `£<amount> <period>` with the same default.
The spec's own example and an independent-search example evaluate as
stated. -/
theorem C4_combined_charges (t : String) :
    (∀ cp, _COMB_RE.search t = some cp →
      _extract_charges t =
        (some ("£" ++ ((grpStr cp 1).getD "") ++ " " ++ ((grpStr cp 2).getD "per year") ++ " (combined)"),
          none)) ∧
    (_COMB_RE.search t = none →
      _extract_charges t = (fmtCharge (_SC_SEARCH.search t), fmtCharge (_GR_SEARCH.search t))) ∧
    _extract_charges "Service Charge And Ground Rent Approx £95 PCM" = (some "£95 PCM (combined)", none) ∧
    _extract_charges "Service charge £100 pcm. Ground rent £10" = (some "£100 pcm", some "£10 per year") := by
  refine ⟨?_, ?_, by decide, by decide⟩
  · intro cp hcp
    simp [_extract_charges, hcp]
  · intro hn
    simp [_extract_charges, hn]

/-- Witness for C4: a text with no charge phrasing at all yields neither
charge. -/
theorem C4_combined_charges_witness : _extract_charges "no fees" = (none, none) := by
  have h := (C4_combined_charges "no fees").2.1 (by decide)
  rw [h]
  decide

/-- How the added-date resolves: absolute first (kept only when the
matched date normalizes), then the relative phrasings in source order. -/
theorem parse_added_phases (today : Date) (t : String) :
    (parse_added_reduced today t).1 =
      (match ((_ADDED_DATE.search t).bind (fun cp => (grpStr cp 1).bind _norm_date_dmy)) with
       | some v => some v
       | none =>
          if inStr "added yesterday" (pyLower t) then some (isoDate (subDays today 1))
          else if inStr "added today" (pyLower t) then some (isoDate today)
          else
            match (_ADDED_REL.search (pyLower t)).bind (fun cp => grpStr cp 1) with
            | some g => some (isoDate (subDays today (natOfDigits g.toList)))
            | none => none) := by
  cases hs : _ADDED_DATE.search t with
  | none =>
    cases hr : _ADDED_REL.search (pyLower t) with
    | none => simp [parse_added_reduced, hs, hr]
    | some cp =>
      cases hg : grpStr cp 1 with
      | none => simp [parse_added_reduced, hs, hr, hg]
      | some g => simp [parse_added_reduced, hs, hr, hg]
  | some cp =>
    cases hn : (grpStr cp 1).bind _norm_date_dmy with
    | none =>
      cases hr : _ADDED_REL.search (pyLower t) with
      | none => simp [parse_added_reduced, hs, hr, hn]
      | some cp' =>
        cases hg : grpStr cp' 1 with
        | none => simp [parse_added_reduced, hs, hr, hg, hn]
        | some g => simp [parse_added_reduced, hs, hr, hg, hn]
    | some v => simp [parse_added_reduced, hs, hn]

/-- The reduced-date side resolves the same way, independently. -/
theorem parse_reduced_phases (today : Date) (t : String) :
    (parse_added_reduced today t).2 =
      (match ((_REDUCED_DATE.search t).bind (fun cp => (grpStr cp 1).bind _norm_date_dmy)) with
       | some v => some v
       | none =>
          if inStr "reduced yesterday" (pyLower t) then some (isoDate (subDays today 1))
          else if inStr "reduced today" (pyLower t) then some (isoDate today)
          else
            match (_REDUCED_REL.search (pyLower t)).bind (fun cp => grpStr cp 1) with
            | some g => some (isoDate (subDays today (natOfDigits g.toList)))
            | none => none) := by
  cases hs : _REDUCED_DATE.search t with
  | none =>
    cases hr : _REDUCED_REL.search (pyLower t) with
    | none => simp [parse_added_reduced, hs, hr]
    | some cp =>
      cases hg : grpStr cp 1 with
      | none => simp [parse_added_reduced, hs, hr, hg]
      | some g => simp [parse_added_reduced, hs, hr, hg]
  | some cp =>
    cases hn : (grpStr cp 1).bind _norm_date_dmy with
    | none =>
      cases hr : _REDUCED_REL.search (pyLower t) with
      | none => simp [parse_added_reduced, hs, hr, hn]
      | some cp' =>
        cases hg : grpStr cp' 1 with
        | none => simp [parse_added_reduced, hs, hr, hg, hn]
        | some g => simp [parse_added_reduced, hs, hr, hg, hn]
    | some v => simp [parse_added_reduced, hs, hn]

/-- C5 counterexample.  In `"Added on 31/02/24 added today"` the absolute
pattern matches and a relative phrase is present, yet the result follows
the relative phrase: the matched absolute date does not normalize (31
February is invalid), so the claimed unconditional priority of an
absolute match over a relative one fails on this input. -/
theorem C5_counterexample :
    (_ADDED_DATE.search "Added on 31/02/24 added today").isSome = true ∧
    ((_ADDED_DATE.search "Added on 31/02/24 added today").bind
      (fun cp => (grpStr cp 1).bind _norm_date_dmy)) = none ∧
    (parse_added_reduced ⟨2024, 3, 15⟩ "Added on 31/02/24 added today").1 = some "2024-03-15" := by
  decide

/-- C5 (amended).  `"Added on 05/01/24"` yields `2024-01-05` (day/month
order, 2-digit year read as 20xx, ISO output); a relative phrase yields
the current date minus the stated days (`yesterday` = 1, `today` = 0);
and an absolute match takes priority over any relative phrase whenever
the matched date normalizes to a valid date — when it does not (or no
absolute label is present), the relative phrasings apply in source order.
The same holds independently for the reduced date. -/
theorem C5_dates (today : Date) (t : String) :
    (∀ v, ((_ADDED_DATE.search t).bind (fun cp => (grpStr cp 1).bind _norm_date_dmy)) = some v →
      (parse_added_reduced today t).1 = some v) ∧
    (_norm_date_dmy "05/01/24" = some "2024-01-05") ∧
    ((parse_added_reduced today "Added on 05/01/24 added today").1 = some "2024-01-05") ∧
    (((_ADDED_DATE.search t).bind (fun cp => (grpStr cp 1).bind _norm_date_dmy)) = none →
      (inStr "added yesterday" (pyLower t) = true →
        (parse_added_reduced today t).1 = some (isoDate (subDays today 1))) ∧
      (inStr "added yesterday" (pyLower t) = false → inStr "added today" (pyLower t) = true →
        (parse_added_reduced today t).1 = some (isoDate today)) ∧
      (inStr "added yesterday" (pyLower t) = false → inStr "added today" (pyLower t) = false →
        ∀ g, ((_ADDED_REL.search (pyLower t)).bind (fun cp => grpStr cp 1)) = some g →
          (parse_added_reduced today t).1 = some (isoDate (subDays today (natOfDigits g.toList))))) ∧
    (∀ v, ((_REDUCED_DATE.search t).bind (fun cp => (grpStr cp 1).bind _norm_date_dmy)) = some v →
      (parse_added_reduced today t).2 = some v) ∧
    (((_REDUCED_DATE.search t).bind (fun cp => (grpStr cp 1).bind _norm_date_dmy)) = none →
      (inStr "reduced yesterday" (pyLower t) = true →
        (parse_added_reduced today t).2 = some (isoDate (subDays today 1))) ∧
      (inStr "reduced yesterday" (pyLower t) = false → inStr "reduced today" (pyLower t) = true →
        (parse_added_reduced today t).2 = some (isoDate today)) ∧
      (inStr "reduced yesterday" (pyLower t) = false → inStr "reduced today" (pyLower t) = false →
        ∀ g, ((_REDUCED_REL.search (pyLower t)).bind (fun cp => grpStr cp 1)) = some g →
          (parse_added_reduced today t).2 = some (isoDate (subDays today (natOfDigits g.toList))))) := by
  refine ⟨?_, by decide, ?_, ?_, ?_, ?_⟩
  · intro v hv
    rw [parse_added_phases, hv]
  · rw [parse_added_phases]
    have habs : ((_ADDED_DATE.search "Added on 05/01/24 added today").bind
        (fun cp => (grpStr cp 1).bind _norm_date_dmy)) = some "2024-01-05" := by decide
    rw [habs]
  · intro habs
    rw [parse_added_phases, habs]
    refine ⟨fun hy => by rw [hy]; simp, fun hy ht => by rw [hy, ht]; simp, fun hy ht g hg => ?_⟩
    rw [hy, ht, hg]
    simp
  · intro v hv
    rw [parse_reduced_phases, hv]
  · intro habs
    rw [parse_reduced_phases, habs]
    refine ⟨fun hy => by rw [hy]; simp, fun hy ht => by rw [hy, ht]; simp, fun hy ht g hg => ?_⟩
    rw [hy, ht, hg]
    simp

/-- Witness for C5 (amended), at the spec's own examples: the valid
absolute date wins over a relative phrase also present, and "added 3 days
ago" resolves against the given current date. -/
theorem C5_dates_witness :
    (parse_added_reduced ⟨2024, 3, 15⟩ "Added on 05/01/24 added yesterday").1 = some "2024-01-05" ∧
    (parse_added_reduced ⟨2024, 3, 15⟩ "was added 3 days ago").1 = some "2024-03-12" ∧
    (parse_added_reduced ⟨2024, 3, 15⟩ "price reduced yesterday").2 = some "2024-03-14" := by
  refine ⟨(C5_dates ⟨2024, 3, 15⟩ "Added on 05/01/24 added yesterday").1 "2024-01-05" (by decide), ?_, ?_⟩
  · have h := ((C5_dates ⟨2024, 3, 15⟩ "was added 3 days ago").2.2.2.1 (by decide)).2.2
      (by decide) (by decide) "3" (by decide)
    rw [h]
    decide
  · have h := ((C5_dates ⟨2024, 3, 15⟩ "price reduced yesterday").2.2.2.2.2 (by decide)).1 (by decide)
    rw [h]
    decide

/-! ## Soundness facts about the matcher, for the lease-years bound -/

theorem tryCnt_sound (k : List Char → Caps → Option Caps) (s : List Char) (c : Caps) :
    ∀ (cnt j : Nat) (r : Caps), tryCnt k s c cnt j = some r →
    ∃ j', j' ≤ j ∧ j < j' + cnt ∧ k (s.drop j') c = some r := by
  intro cnt
  induction cnt with
  | zero => intro j r h; simp [tryCnt] at h
  | succ cnt ih =>
    intro j r h
    unfold tryCnt at h
    cases hk : k (s.drop j) c with
    | some r' =>
      rw [hk] at h
      simp at h
      subst h
      exact ⟨j, le_refl j, by omega, hk⟩
    | none =>
      rw [hk] at h
      obtain ⟨j', hle, hlt, hk'⟩ := ih (j - 1) r h
      exact ⟨j', by omega, by omega, hk'⟩

theorem mrun_rep_sound (p : Char → Bool) (lo : Nat) (hi : Option Nat) (s : List Char) (c : Caps)
    (k : List Char → Caps → Option Caps) (r : Caps) (h : mrun (.rep p lo hi) s c k = some r) :
    ∃ j, lo ≤ j ∧ (∀ hb, hi = some hb → j ≤ hb) ∧ j ≤ (s.takeWhile p).length ∧
      k (s.drop j) c = some r := by
  cases hi with
  | none =>
    simp only [mrun] at h
    by_cases htop : (s.takeWhile p).length < lo
    · rw [if_pos htop] at h
      simp at h
    · rw [if_neg htop] at h
      obtain ⟨j', hle, hlt, hk⟩ := tryCnt_sound k s c _ _ r h
      exact ⟨j', by omega, by intro hb hhb; exact Option.noConfusion hhb, hle, hk⟩
  | some hb =>
    simp only [mrun] at h
    by_cases htop : (s.takeWhile p).length ⊓ hb < lo
    · rw [if_pos htop] at h
      simp at h
    · rw [if_neg htop] at h
      obtain ⟨j', hle, hlt, hk⟩ := tryCnt_sound k s c _ _ r h
      refine ⟨j', by omega, ?_, by omega, hk⟩
      intro hb' hhb
      cases hhb
      omega

theorem tryCnt_caps_const (k : List Char → Caps → Option Caps) (s : List Char) (c : Caps) :
    ∀ (cnt j : Nat) (r : Caps), tryCnt k s c cnt j = some r → ∃ s', k s' c = some r := by
  intro cnt j r h
  obtain ⟨j', _, _, hk⟩ := tryCnt_sound k s c cnt j r h
  exact ⟨s.drop j', hk⟩

/-- A capture-free pattern invokes its continuation with the captures it
was given, unchanged. -/
theorem mrun_grpFree_caps : ∀ (a : RE), grpFree a = true →
    ∀ (s : List Char) (c : Caps) (k : List Char → Caps → Option Caps) (r : Caps),
    mrun a s c k = some r → ∃ s', k s' c = some r := by
  intro a
  induction a with
  | eps => intro _ s c k r h; exact ⟨s, h⟩
  | cls p =>
    intro _ s c k r h
    cases s with
    | nil => simp [mrun] at h
    | cons ch rest =>
      simp only [mrun] at h
      by_cases hp : p ch
      · rw [if_pos hp] at h; exact ⟨rest, h⟩
      · rw [if_neg hp] at h; simp at h
  | seq a b iha ihb =>
    intro hg s c k r h
    simp only [grpFree, Bool.and_eq_true] at hg
    simp only [mrun] at h
    obtain ⟨s', h'⟩ := iha hg.1 s c _ r h
    exact ihb hg.2 s' c k r h'
  | alt a b iha ihb =>
    intro hg s c k r h
    simp only [grpFree, Bool.and_eq_true] at hg
    simp only [mrun] at h
    cases ha : mrun a s c k with
    | some r' => rw [ha] at h; cases h; exact iha hg.1 s c k r ha
    | none => rw [ha] at h; exact ihb hg.2 s c k r h
  | opt a iha =>
    intro hg s c k r h
    simp only [grpFree] at hg
    simp only [mrun] at h
    cases ha : mrun a s c k with
    | some r' => rw [ha] at h; cases h; exact iha hg s c k r ha
    | none => rw [ha] at h; exact ⟨s, h⟩
  | rep p lo hi =>
    intro _ s c k r h
    obtain ⟨j, _, _, _, hk⟩ := mrun_rep_sound p lo hi s c k r h
    exact ⟨s.drop j, hk⟩
  | grp i a iha => intro hg; simp [grpFree] at hg
  | nw =>
    intro _ s c k r h
    cases s with
    | nil => exact ⟨[], h⟩
    | cons ch rest =>
      simp only [mrun] at h
      by_cases hw : isWordChar ch
      · rw [if_pos hw] at h; simp at h
      · rw [if_neg hw] at h; exact ⟨ch :: rest, h⟩

theorem all_take_of_le_takeWhile (p : Char → Bool) : ∀ (s : List Char) (j : Nat),
    j ≤ (s.takeWhile p).length → (s.take j).all p = true := by
  intro s
  induction s with
  | nil => intro j h; simp at h; simp [h]
  | cons x xs ih =>
    intro j h
    cases j with
    | zero => simp
    | succ j =>
      by_cases hp : p x
      · rw [List.takeWhile_cons, if_pos hp, List.length_cons] at h
        rw [List.take_succ_cons, List.all_cons, hp, Bool.true_and]
        exact ih j (by omega)
      · rw [List.takeWhile_cons, if_neg hp] at h
        simp at h


theorem digit_toNat_le (c : Char) (h : isDigitB c = true) : 48 ≤ c.toNat ∧ c.toNat ≤ 57 := by
  simp [isDigitB, Char.isDigit] at h
  exact h

theorem natOfDigits_aux_lt : ∀ (l : List Char) (a : Nat), l.all isDigitB = true →
    l.foldl (fun a c => a * 10 + (c.toNat - 48)) a < (a + 1) * 10 ^ l.length := by
  intro l
  induction l with
  | nil => intro a _; simp
  | cons c l ih =>
    intro a hall
    rw [List.all_cons, Bool.and_eq_true] at hall
    have hd : c.toNat - 48 ≤ 9 := by
      have := digit_toNat_le c hall.1
      omega
    have h1 := ih (a * 10 + (c.toNat - 48)) hall.2
    have h2 : (a * 10 + (c.toNat - 48) + 1) * 10 ^ l.length ≤ (a + 1) * 10 ^ (l.length + 1) := by
      have hstep : a * 10 + (c.toNat - 48) + 1 ≤ (a + 1) * 10 := by omega
      calc (a * 10 + (c.toNat - 48) + 1) * 10 ^ l.length
          ≤ ((a + 1) * 10) * 10 ^ l.length := Nat.mul_le_mul_right _ hstep
        _ = (a + 1) * 10 ^ (l.length + 1) := by ring
    calc (c :: l).foldl (fun a c => a * 10 + (c.toNat - 48)) a
        = l.foldl (fun a c => a * 10 + (c.toNat - 48)) (a * 10 + (c.toNat - 48)) := rfl
      _ < (a * 10 + (c.toNat - 48) + 1) * 10 ^ l.length := h1
      _ ≤ (a + 1) * 10 ^ (l.length + 1) := h2

theorem natOfDigits_lt (l : List Char) (h : l.all isDigitB = true) :
    natOfDigits l < 10 ^ l.length := by
  have := natOfDigits_aux_lt l 0 h
  simpa [natOfDigits] using this

/-- Any successful search is a successful match at some position. -/
theorem searchAux_matchAt (r : RE) (wb : Bool) : ∀ (pw : Bool) (s : List Char) (cp : Caps),
    searchAux r wb pw s = some cp → ∃ s', matchAt r s' = some cp := by
  intro pw s
  induction s generalizing pw with
  | nil =>
    intro cp h
    simp only [searchAux] at h
    by_cases hb : wb && pw
    · rw [if_pos hb] at h; exact absurd h (by simp)
    · rw [if_neg hb] at h; exact ⟨[], h⟩
  | cons ch rest ih =>
    intro cp h
    simp only [searchAux] at h
    cases ha : (if wb && pw then none else matchAt r (ch :: rest)) with
    | some cp' =>
      rw [ha] at h
      simp at h
      subst h
      by_cases hb : wb && pw
      · rw [if_pos hb] at ha; exact absurd ha (by simp)
      · rw [if_neg hb] at ha; exact ⟨ch :: rest, ha⟩
    | none =>
      rw [ha] at h
      exact ih (isWordChar ch) cp h

/-- A successful match of the lease-years pattern captures, as group 1,
exactly a block of 2 to 4 leading digits. -/
theorem lease_matchAt_shape (s : List Char) (cp : Caps)
    (h : matchAt _LEASE_YEARS_RE.ast s = some cp) :
    ∃ j, 2 ≤ j ∧ j ≤ 4 ∧ (s.take j).all isDigitB = true ∧ cp = [(1, s.take j)] := by
  have h2 : mrun (.rep isDigitB 2 (some 4)) s []
      (fun s1 c1 =>
        mrun (cat [wsp, .alt (cat [lit "year", .opt (chr 's')]) (cat [lit "yr", .opt (chr 's')]), wsp,
          .opt (alts [lit "remaining", lit "left", lit "lease", lit "unexpired"])]) s1
          ((1, s.take (s.length - s1.length)) :: c1) (fun _ c => some c)) = some cp := h
  obtain ⟨j, hlo, hhi, hlen, hk⟩ := mrun_rep_sound isDigitB 2 (some 4) s [] _ cp h2
  have hj4 : j ≤ 4 := hhi 4 rfl
  have htw : (s.takeWhile isDigitB).length ≤ s.length := by
    exact (List.takeWhile_sublist isDigitB).length_le
  have hdrop : s.length - (s.drop j).length = j := by
    rw [List.length_drop]
    omega
  rw [hdrop] at hk
  obtain ⟨s'', hf⟩ := mrun_grpFree_caps _ (by rfl) _ _ _ _ hk
  simp only [Option.some.injEq] at hf
  exact ⟨j, hlo, hj4, all_take_of_le_takeWhile isDigitB s j hlen, hf.symm⟩

/-- C6 counterexample.  The claim says all internal whitespace in the
matched postcode collapses to a single space; but the code performs one
pass of double-space replacement, so three internal spaces leave a double
space behind. -/
theorem C6_counterexample :
    (parse_text_fields gF0 oI0 d0 "at nr1   2ab here").postcode = some "NR1  2AB" ∧
    some "NR1  2AB" ≠ some "NR1 2AB" := by
  constructor
  · rw [parse_text_fields_postcode]
    decide
  · decide

/-- C6 (amended).  Postcode extraction returns the first loose-postcode
match, upper-cased, with each non-overlapping pair of consecutive spaces
replaced by one space and the ends stripped — so a double space becomes a
single space (the spec's own example holds) but longer runs only halve
and non-space whitespace is preserved. -/
theorem C6_postcode (gF : String → String) (oI : String → Option String) (today : Date)
    (t : String) :
    ((parse_text_fields gF oI today t).postcode =
      (_POSTCODE_RE.search t).bind (fun cp => (grpStr cp 1).map normPostcode)) ∧
    (∀ g : String, normPostcode g = pyStrip (String.mk (replacePairSpace (pyUpper g).toList))) ∧
    normPostcode "nr1  2ab" = "NR1 2AB" ∧
    normPostcode "nr1\t2ab" = "NR1\t2AB" := by
  exact ⟨parse_text_fields_postcode gF oI today t, fun g => rfl, by decide, by decide⟩

/-- C7 counterexample.  A 4-digit numeral is accepted, so an extracted
`lease_years` value can fall outside the claimed plausible range 1–999. -/
theorem C7_counterexample :
    (parse_text_fields gF0 oI0 d0 "term of 1000 years remaining").lease_years = some 1000 ∧
    ¬(1000 ≤ 999) := by
  constructor
  · rw [parse_text_fields_lease]
    decide
  · decide

/-- C7 (amended).  Lease extraction returns the value of the first
matching 2–4-digit `<N> years/yrs …` numeral; since the numeral has at
most four digits, every extracted value is at most 9999 (not 999). -/
theorem C7_lease_years (gF : String → String) (oI : String → Option String) (today : Date)
    (t : String) :
    ((parse_text_fields gF oI today t).lease_years =
      (_LEASE_YEARS_RE.search t).bind (fun cp => (grpStr cp 1).map (fun g => natOfDigits g.toList))) ∧
    (∀ n, (parse_text_fields gF oI today t).lease_years = some n → n ≤ 9999) := by
  refine ⟨parse_text_fields_lease gF oI today t, ?_⟩
  intro n hn
  rw [parse_text_fields_lease] at hn
  cases hs : _LEASE_YEARS_RE.search t with
  | none => rw [hs] at hn; simp at hn
  | some cp =>
    rw [hs] at hn
    obtain ⟨s', hm⟩ := searchAux_matchAt _LEASE_YEARS_RE.ast _LEASE_YEARS_RE.wb false t.toList cp hs
    obtain ⟨j, hj2, hj4, hall, hcp⟩ := lease_matchAt_shape s' cp hm
    subst hcp
    have hval : (some [(1, s'.take j)] : Option Caps).bind
        (fun cp => (grpStr cp 1).map (fun g => natOfDigits g.toList)) =
        some (natOfDigits (s'.take j)) := rfl
    rw [hval] at hn
    have hn' : natOfDigits (s'.take j) = n := by simpa using hn
    have hbound := natOfDigits_lt (s'.take j) hall
    have hlen : (s'.take j).length ≤ 4 := by
      rw [List.length_take]
      omega
    have hpow : (10 : Nat) ^ (s'.take j).length ≤ 10000 := by
      calc (10 : Nat) ^ (s'.take j).length ≤ 10 ^ 4 := Nat.pow_le_pow_right (by omega) hlen
        _ = 10000 := by norm_num
    omega

/-- Witness for C7 (amended): the bound applied at a concrete page. -/
theorem C7_lease_years_witness : (99 : Nat) ≤ 9999 := by
  refine (C7_lease_years gF0 oI0 d0 "a 99 years lease").2 99 ?_
  rw [parse_text_fields_lease]
  decide

/-! ## URL normalization: the percent codec round-trips on ASCII -/

theorem toNat_ofNat_valid (n : Nat) (h : n < 55296) : (Char.ofNat n).toNat = n := by
  unfold Char.ofNat
  rw [dif_pos]
  · rfl
  · unfold Nat.isValidChar
    left
    omega

theorem lcC_toNat (c : Char) : (lcC c).toNat = lcn c := by
  unfold lcC lcn
  by_cases h : 65 ≤ c.toNat ∧ c.toNat ≤ 90
  · rw [if_pos h, if_pos h, toNat_ofNat_valid _ (by omega)]
  · rw [if_neg h, if_neg h]

theorem lcC_idem (c : Char) : lcC (lcC c) = lcC c := by
  unfold lcC
  by_cases h : 65 ≤ c.toNat ∧ c.toNat ≤ 90
  · rw [if_pos h, if_neg]
    rw [toNat_ofNat_valid _ (by omega)]
    omega
  · rw [if_neg h, if_neg h]

theorem hexVal_hexDigit : ∀ n : Fin 16, hexVal (hexDigit n.val) = some n.val := by decide

theorem hexDigit_ne : ∀ n : Fin 16,
    hexDigit n.val ≠ '&' ∧ hexDigit n.val ≠ '=' ∧ hexDigit n.val ≠ '#' ∧
    hexDigit n.val ≠ '?' ∧ hexDigit n.val ≠ '/' ∧ hexDigit n.val ≠ ':' := by decide

theorem unquoteChars_plus (rest : List Char) :
    unquoteChars ('+' :: rest) = ' ' :: unquoteChars rest := rfl

theorem unquoteChars_escape (a b : Char) (rest : List Char) :
    unquoteChars ('%' :: a :: b :: rest) =
      (match hexVal a, hexVal b with
       | some va, some vb => Char.ofNat (16 * va + vb) :: unquoteChars rest
       | _, _ => '%' :: unquoteChars (a :: b :: rest)) := rfl

theorem unquoteChars_cons_default (c : Char) (rest : List Char) (h1 : c ≠ '+') (h2 : c ≠ '%') :
    unquoteChars (c :: rest) = c :: unquoteChars rest := by
  conv_lhs => unfold unquoteChars
  split
  · rename_i heq
    simp at heq
  · rename_i heq
    injection heq with hc hr
    exact absurd hc h1
  · rename_i heq
    injection heq with hc hr
    exact absurd hc h2
  · rename_i heq
    injection heq with hc hr
    subst hc
    subst hr
    rfl

theorem safeQ_ne (c : Char) (h : safeQ c = true) :
    c ≠ '+' ∧ c ≠ '%' ∧ c ≠ '&' ∧ c ≠ '=' ∧ c ≠ '#' ∧ c ≠ '?' ∧ c ≠ ':' ∧ c ≠ ' ' := by
  refine ⟨?_, ?_, ?_, ?_, ?_, ?_, ?_, ?_⟩ <;> (intro hc; subst hc; simp [safeQ] at h)

/-- Quoting one ASCII character and then unquoting gives it back, in front
of anything. -/
theorem unquote_quoteChar (c : Char) (h : c.toNat < 128) (rest : List Char) :
    unquoteChars (quoteChar c ++ rest) = c :: unquoteChars rest := by
  by_cases hs : safeQ c = true
  · rw [quoteChar, if_pos hs]
    have hne := safeQ_ne c hs
    exact unquoteChars_cons_default c rest hne.1 hne.2.1
  · by_cases hsp : c = ' '
    · subst hsp
      rw [quoteChar]
      norm_num
      rfl
    · rw [quoteChar, if_neg hs, if_neg (by simpa using hsp)]
      rw [utf8Bytes, if_pos h]
      simp only [List.foldr_cons, List.foldr_nil, List.nil_append, List.cons_append,
        List.append_nil]
      have hd : hexVal (hexDigit (c.toNat / 16)) = some (c.toNat / 16) :=
        hexVal_hexDigit ⟨c.toNat / 16, by omega⟩
      have hl : hexVal (hexDigit (c.toNat % 16)) = some (c.toNat % 16) :=
        hexVal_hexDigit ⟨c.toNat % 16, by omega⟩
      rw [unquoteChars_escape, hd, hl]
      show Char.ofNat (16 * (c.toNat / 16) + c.toNat % 16) :: unquoteChars rest = c :: unquoteChars rest
      have harith : 16 * (c.toNat / 16) + c.toNat % 16 = c.toNat := by omega
      rw [harith, Char.ofNat_toNat]

/-- The full ASCII round trip for the value codec. -/
theorem unquote_quote_list (l : List Char) (h : ∀ c ∈ l, c.toNat < 128) :
    unquoteChars (l.foldr (fun c acc => quoteChar c ++ acc) []) = l := by
  induction l with
  | nil => rfl
  | cons c rest ih =>
    rw [List.foldr_cons, unquote_quoteChar c (h c (by simp)) _]
    rw [ih (fun x hx => h x (by simp [hx]))]

theorem mk_toList (s : String) : String.mk s.toList = s := rfl

theorem unquote_plus_quote_plus (x : String) (h : ∀ c ∈ x.toList, c.toNat < 128) :
    unquote_plus (quote_plus x) = x := by
  show String.mk (unquoteChars (x.toList.foldr (fun c acc => quoteChar c ++ acc) [])) = x
  rw [unquote_quote_list x.toList h]
  exact mk_toList x

/-- Characters `quote_plus` can emit for an ASCII input never include the
query-structure separators. -/
theorem quoteChar_chars (c : Char) (h : c.toNat < 128) :
    ∀ x ∈ quoteChar c, x ≠ '&' ∧ x ≠ '=' ∧ x ≠ '#' ∧ x ≠ '?' := by
  intro x hx
  by_cases hs : safeQ c = true
  · rw [quoteChar, if_pos hs] at hx
    simp at hx
    rw [hx]
    have := safeQ_ne c hs
    exact ⟨this.2.2.1, this.2.2.2.1, this.2.2.2.2.1, this.2.2.2.2.2.1⟩
  · by_cases hsp : c = ' '
    · rw [quoteChar, if_neg hs, if_pos (by simp [hsp])] at hx
      simp only [List.mem_cons, List.not_mem_nil, or_false] at hx
      subst hx
      refine ⟨by decide, by decide, by decide, by decide⟩
    · rw [quoteChar, if_neg hs, if_neg (by simpa using hsp), utf8Bytes, if_pos h] at hx
      simp only [List.foldr_cons, List.foldr_nil, List.append_nil] at hx
      have h1 := hexDigit_ne ⟨c.toNat / 16, by omega⟩
      have h2 := hexDigit_ne ⟨c.toNat % 16, by omega⟩
      simp only [List.mem_cons, List.not_mem_nil, or_false] at hx
      rcases hx with rfl | rfl | rfl
      · refine ⟨by decide, by decide, by decide, by decide⟩
      · exact ⟨h1.1, h1.2.1, h1.2.2.1, h1.2.2.2.1⟩
      · exact ⟨h2.1, h2.2.1, h2.2.2.1, h2.2.2.2.1⟩

/-! ## Splitting lemmas for the query string -/

theorem splitFirst_of_no_sep (sep : Char) : ∀ (l : List Char), (∀ c ∈ l, c ≠ sep) →
    splitFirst sep l = none := by
  intro l
  induction l with
  | nil => intro _; rfl
  | cons c rest ih =>
    intro h
    rw [splitFirst, if_neg (by simpa using h c (by simp)),
      ih (fun x hx => h x (by simp [hx]))]
    rfl

theorem splitFirst_append_sep (sep : Char) : ∀ (a b : List Char), (∀ c ∈ a, c ≠ sep) →
    splitFirst sep (a ++ sep :: b) = some (a, b) := by
  intro a
  induction a with
  | nil => intro b _; simp [splitFirst]
  | cons c rest ih =>
    intro b h
    rw [List.cons_append, splitFirst, if_neg (by simpa using h c (by simp)),
      ih b (fun x hx => h x (by simp [hx]))]
    rfl

theorem splitFirst_pre_no_sep (sep : Char) : ∀ (l a b : List Char),
    splitFirst sep l = some (a, b) → ∀ c ∈ a, c ≠ sep := by
  intro l
  induction l with
  | nil => intro a b h; simp [splitFirst] at h
  | cons c rest ih =>
    intro a b h
    rw [splitFirst] at h
    by_cases hc : (c == sep) = true
    · rw [if_pos hc] at h
      simp [Prod.ext_iff] at h
      obtain ⟨ha, hb⟩ := h
      subst ha
      intro x hx
      simp at hx
    · rw [if_neg hc] at h
      cases hs : splitFirst sep rest with
      | none => rw [hs] at h; simp at h
      | some p =>
        rw [hs] at h
        simp [Prod.ext_iff] at h
        obtain ⟨ha, hb⟩ := h
        subst ha
        intro x hx
        rcases List.mem_cons.mp hx with rfl | hx2
        · simpa using hc
        · exact ih p.1 p.2 (by rw [hs]) x hx2

theorem splitFirst_none_no_sep (sep : Char) : ∀ (l : List Char),
    splitFirst sep l = none → ∀ c ∈ l, c ≠ sep := by
  intro l
  induction l with
  | nil => intro _ c hc; simp at hc
  | cons c rest ih =>
    intro h x hx
    rw [splitFirst] at h
    by_cases hc : (c == sep) = true
    · rw [if_pos hc] at h; simp at h
    · rw [if_neg hc] at h
      cases hs : splitFirst sep rest with
      | some p => rw [hs] at h; simp at h
      | none =>
        rcases List.mem_cons.mp hx with rfl | hx2
        · simpa using hc
        · exact ih hs x hx2

theorem splitChar_no_sep (sep : Char) : ∀ (l : List Char), (∀ c ∈ l, c ≠ sep) →
    splitChar sep l = [l] := by
  intro l
  induction l with
  | nil => intro _; rfl
  | cons c rest ih =>
    intro h
    simp only [splitChar]
    rw [if_neg (by simpa using h c (by simp)), ih (fun x hx => h x (by simp [hx]))]

theorem splitChar_append_sep (sep : Char) : ∀ (a b : List Char), (∀ c ∈ a, c ≠ sep) →
    splitChar sep (a ++ sep :: b) = a :: splitChar sep b := by
  intro a
  induction a with
  | nil =>
    intro b _
    simp only [List.nil_append, splitChar]
    rw [if_pos (by simp)]
  | cons c rest ih =>
    intro b h
    rw [List.cons_append]
    simp only [splitChar]
    rw [if_neg (by simpa using h c (by simp)), ih b (fun x hx => h x (by simp [hx]))]

theorem splitChar_joinAmp : ∀ (fields : List (List Char)), fields ≠ [] →
    (∀ f ∈ fields, ∀ c ∈ f, c ≠ '&') →
    splitChar '&' (joinAmp fields) = fields := by
  intro fields
  induction fields with
  | nil => intro h _; exact absurd rfl h
  | cons f rest ih =>
    intro _ h
    cases rest with
    | nil => exact splitChar_no_sep '&' f (h f (by simp))
    | cons f2 rest2 =>
      rw [show joinAmp (f :: f2 :: rest2) = f ++ '&' :: joinAmp (f2 :: rest2) from rfl]
      rw [splitChar_append_sep '&' f (joinAmp (f2 :: rest2)) (h f (by simp))]
      rw [ih (by simp) (fun g hg => h g (by simp [hg]))]

theorem quote_fold_chars : ∀ (l : List Char), (∀ c ∈ l, c.toNat < 128) →
    ∀ y ∈ l.foldr (fun c acc => quoteChar c ++ acc) [],
      y ≠ '&' ∧ y ≠ '=' ∧ y ≠ '#' ∧ y ≠ '?' := by
  intro l
  induction l with
  | nil => intro _ y hy; simp at hy
  | cons c rest ih =>
    intro h y hy
    rw [List.foldr_cons] at hy
    rcases List.mem_append.mp hy with h1 | h2
    · exact quoteChar_chars c (h c (by simp)) y h1
    · exact ih (fun x hx => h x (by simp [hx])) y h2

theorem quote_plus_chars (x : String) (h : ∀ c ∈ x.toList, c.toNat < 128) :
    ∀ y ∈ (quote_plus x).toList, y ≠ '&' ∧ y ≠ '=' ∧ y ≠ '#' ∧ y ≠ '?' :=
  quote_fold_chars x.toList h

/-- The `parse_qsl` loop body recovers an encoded `key=value` field. -/
theorem qslField_encoded (k v : String) (acc : List (String × String))
    (hk : ∀ c ∈ k.toList, c.toNat < 128) (hv : ∀ c ∈ v.toList, c.toNat < 128) :
    qslField true ((quote_plus k).toList ++ '=' :: (quote_plus v).toList) acc = (k, v) :: acc := by
  unfold qslField
  rw [if_neg (by simp)]
  rw [splitFirst_append_sep '=' (quote_plus k).toList (quote_plus v).toList
    (fun c hc => (quote_plus_chars k hk c hc).2.1)]
  have hku : String.mk (unquoteChars (quote_plus k).toList) = k := unquote_plus_quote_plus k hk
  have hvu : String.mk (unquoteChars (quote_plus v).toList) = v := unquote_plus_quote_plus v hv
  show (if (!(quote_plus v).toList.isEmpty || true) = true
      then (String.mk (unquoteChars (quote_plus k).toList),
        String.mk (unquoteChars (quote_plus v).toList)) :: acc else acc) = (k, v) :: acc
  rw [if_pos (by simp), hku, hvu]

theorem foldr_qslField : ∀ (l : List (String × String)),
    (∀ kv ∈ l, (∀ c ∈ kv.1.toList, c.toNat < 128) ∧ (∀ c ∈ kv.2.toList, c.toNat < 128)) →
    l.foldr (fun kv acc =>
      qslField true ((quote_plus kv.1).toList ++ '=' :: (quote_plus kv.2).toList) acc) [] = l := by
  intro l
  induction l with
  | nil => intro _; rfl
  | cons kv rest ih =>
    intro h
    rw [List.foldr_cons, ih (fun x hx => h x (by simp [hx]))]
    exact qslField_encoded kv.1 kv.2 rest (h kv (by simp)).1 (h kv (by simp)).2

/-- Decoding an encoded parameter list gives it back (ASCII data). -/
theorem parse_qsl_urlencode (l : List (String × String))
    (h : ∀ kv ∈ l, (∀ c ∈ kv.1.toList, c.toNat < 128) ∧ (∀ c ∈ kv.2.toList, c.toNat < 128)) :
    parse_qsl true (urlencode l) = l := by
  unfold parse_qsl
  cases l with
  | nil => rfl
  | cons kv0 rest =>
    have hfields : splitChar '&' ((urlencode (kv0 :: rest)).toList) =
        (kv0 :: rest).map (fun kv => (quote_plus kv.1).toList ++ '=' :: (quote_plus kv.2).toList) := by
      rw [show (urlencode (kv0 :: rest)).toList =
        joinAmp ((kv0 :: rest).map
          (fun kv => (quote_plus kv.1).toList ++ '=' :: (quote_plus kv.2).toList)) from rfl]
      refine splitChar_joinAmp _ (by simp) ?_
      intro f hf c hc
      simp only [List.mem_map] at hf
      obtain ⟨kv, hkv, rfl⟩ := hf
      rcases List.mem_append.mp hc with h1 | h2
      · exact (quote_plus_chars kv.1 (h kv hkv).1 c h1).1
      · rcases List.mem_cons.mp h2 with rfl | h3
        · decide
        · exact (quote_plus_chars kv.2 (h kv hkv).2 c h3).1
    rw [hfields, List.foldr_map]
    exact foldr_qslField (kv0 :: rest) h

/-! ## Per-stage facts about `urlparse` -/

theorem splitFirst_sub (sep : Char) : ∀ (l a b : List Char), splitFirst sep l = some (a, b) →
    (∀ c ∈ a, c ∈ l) ∧ (∀ c ∈ b, c ∈ l) := by
  intro l
  induction l with
  | nil => intro a b h; simp [splitFirst] at h
  | cons c rest ih =>
    intro a b h
    rw [splitFirst] at h
    by_cases hc : (c == sep) = true
    · rw [if_pos hc] at h
      simp [Prod.ext_iff] at h
      obtain ⟨ha, hb⟩ := h
      subst ha
      subst hb
      exact ⟨fun x hx => by simp at hx, fun x hx => by simp [hx]⟩
    · rw [if_neg hc] at h
      cases hs : splitFirst sep rest with
      | none => rw [hs] at h; simp at h
      | some p =>
        rw [hs] at h
        simp [Prod.ext_iff] at h
        obtain ⟨ha, hb⟩ := h
        subst ha
        subst hb
        obtain ⟨hsa, hsb⟩ := ih p.1 p.2 (by rw [hs])
        constructor
        · intro x hx
          rcases List.mem_cons.mp hx with rfl | hx2
          · simp
          · simp [hsa x hx2]
        · intro x hx
          simp [hsb x hx]

theorem splitChar_ne_nil (sep : Char) : ∀ (l : List Char), splitChar sep l ≠ [] := by
  intro l
  cases l with
  | nil => simp [splitChar]
  | cons c rest =>
    simp only [splitChar]
    by_cases hc : (c == sep) = true
    · rw [if_pos hc]
      simp
    · rw [if_neg hc]
      cases hr : splitChar sep rest with
      | nil => simp
      | cons h0 t0 => simp

theorem splitChar_sub (sep : Char) : ∀ (l : List Char), ∀ f ∈ splitChar sep l, ∀ c ∈ f, c ∈ l := by
  intro l
  induction l with
  | nil => intro f hf c hc; simp [splitChar] at hf; subst hf; simp at hc
  | cons x rest ih =>
    intro f hf c hc
    simp only [splitChar] at hf
    by_cases hx : (x == sep) = true
    · rw [if_pos hx] at hf
      rcases List.mem_cons.mp hf with rfl | hf2
      · simp at hc
      · simp [ih f hf2 c hc]
    · rw [if_neg hx] at hf
      cases hr : splitChar sep rest with
      | nil => exact absurd hr (splitChar_ne_nil sep rest)
      | cons h0 t0 =>
        rw [hr] at hf
        rcases List.mem_cons.mp hf with rfl | hf2
        · rcases List.mem_cons.mp hc with rfl | hc2
          · simp
          · have := ih h0 (by rw [hr]; simp) c hc2
            simp [this]
        · have := ih f (by rw [hr]; simp [hf2]) c hc
          simp [this]

theorem splitAtChar_pre_no_sep (sep : Char) (l : List Char) :
    ∀ c ∈ (splitAtChar sep l).1, c ≠ sep := by
  unfold splitAtChar
  cases hs : splitFirst sep l with
  | none => exact splitFirst_none_no_sep sep l hs
  | some p => exact splitFirst_pre_no_sep sep l p.1 p.2 (by rw [hs])

theorem splitAtChar_sub (sep : Char) (l : List Char) :
    (∀ c ∈ (splitAtChar sep l).1, c ∈ l) ∧ (∀ c ∈ (splitAtChar sep l).2, c ∈ l) := by
  unfold splitAtChar
  cases hs : splitFirst sep l with
  | none => exact ⟨fun c hc => hc, fun c hc => by simp at hc⟩
  | some p => exact splitFirst_sub sep l p.1 p.2 (by rw [hs])

theorem isUpper_iff (c : Char) : c.isUpper = true ↔ 65 ≤ c.toNat ∧ c.toNat ≤ 90 := by
  simp only [Char.isUpper, decide_eq_true_eq, Bool.and_eq_true]
  exact ⟨fun h => ⟨h.1, h.2⟩, fun h => ⟨h.1, h.2⟩⟩

theorem isLower_iff (c : Char) : c.isLower = true ↔ 97 ≤ c.toNat ∧ c.toNat ≤ 122 := by
  simp only [Char.isLower, decide_eq_true_eq, Bool.and_eq_true]
  exact ⟨fun h => ⟨h.1, h.2⟩, fun h => ⟨h.1, h.2⟩⟩

theorem isAlpha_iff (c : Char) :
    c.isAlpha = true ↔ (65 ≤ c.toNat ∧ c.toNat ≤ 90) ∨ (97 ≤ c.toNat ∧ c.toNat ≤ 122) := by
  simp [Char.isAlpha, isUpper_iff, isLower_iff]

theorem isDigit_iff (c : Char) : c.isDigit = true ↔ 48 ≤ c.toNat ∧ c.toNat ≤ 57 := by
  simp only [Char.isDigit, decide_eq_true_eq, Bool.and_eq_true]
  exact ⟨fun h => ⟨h.1, h.2⟩, fun h => ⟨h.1, h.2⟩⟩

theorem lcC_isAlpha (c : Char) (h : c.isAlpha = true) : (lcC c).isAlpha = true := by
  rw [isAlpha_iff] at h ⊢
  rw [lcC_toNat]
  unfold lcn
  by_cases hc : 65 ≤ c.toNat ∧ c.toNat ≤ 90
  · rw [if_pos hc]; omega
  · rw [if_neg hc]; omega

theorem lcC_alnum (c : Char) (h : c.isAlphanum = true) : (lcC c).isAlphanum = true := by
  unfold Char.isAlphanum at h ⊢
  simp only [Bool.or_eq_true] at h ⊢
  rcases h with h | h
  · left
    exact lcC_isAlpha c h
  · right
    have hb := (isDigit_iff c).mp h
    have he : lcC c = c := by
      unfold lcC
      rw [if_neg (by omega)]
    rw [he]
    exact h

theorem lcC_schemeCharB (c : Char) (h : schemeCharB c = true) : schemeCharB (lcC c) = true := by
  unfold schemeCharB at h ⊢
  simp only [Bool.or_eq_true] at h ⊢
  rcases h with ((h | h) | h) | h
  · refine Or.inl (Or.inl (Or.inl ?_))
    exact lcC_alnum c h
  · rw [beq_iff_eq] at h
    subst h
    decide
  · rw [beq_iff_eq] at h
    subst h
    decide
  · rw [beq_iff_eq] at h
    subst h
    decide

theorem schemeCharB_ne_colon (c : Char) (h : schemeCharB c = true) : c ≠ ':' := by
  intro hc
  subst hc
  exact absurd h (by decide)

/-- Case split on `splitSchemeU`, exposing an equation in each branch. -/
theorem splitSchemeU_cases (l : List Char) :
    splitSchemeU l = ([], l) ∨
    (∃ c0 rest0 post, splitFirst ':' l = some (c0 :: rest0, post) ∧
      (c0.isAlpha && (c0 :: rest0).all schemeCharB) = true ∧
      splitSchemeU l = ((c0 :: rest0).map lcC, post)) := by
  cases hs : splitFirst ':' l with
  | none =>
    left
    unfold splitSchemeU
    rw [hs]
  | some p =>
    obtain ⟨pre, post⟩ := p
    cases pre with
    | nil =>
      left
      unfold splitSchemeU
      rw [hs]
    | cons c0 rest0 =>
      have he : splitSchemeU l =
          (if (c0.isAlpha && (c0 :: rest0).all schemeCharB) = true
           then ((c0 :: rest0).map lcC, post) else ([], l)) := by
        unfold splitSchemeU
        rw [hs]
      by_cases hv : (c0.isAlpha && (c0 :: rest0).all schemeCharB) = true
      · right
        refine ⟨c0, rest0, post, rfl, hv, ?_⟩
        rw [he, if_pos hv]
      · left
        rw [he, if_neg hv]

theorem splitSchemeU_spec (l : List Char) :
    (splitSchemeU l).1 = [] ∨
    ((splitSchemeU l).1 ≠ [] ∧
      (∃ c rest, (splitSchemeU l).1 = c :: rest ∧ c.isAlpha = true) ∧
      ((splitSchemeU l).1).all schemeCharB = true ∧
      (splitSchemeU l).1.map lcC = (splitSchemeU l).1) := by
  rcases splitSchemeU_cases l with h | ⟨c0, rest0, post, _, hv, h⟩
  · left
    rw [h]
  · right
    rw [h]
    simp only [Bool.and_eq_true] at hv
    refine ⟨by simp, ⟨lcC c0, rest0.map lcC, by simp, lcC_isAlpha c0 hv.1⟩, ?_, ?_⟩
    · rw [List.all_map]
      rw [List.all_eq_true] at hv ⊢
      intro x hx
      exact lcC_schemeCharB x (hv.2 x hx)
    · rw [List.map_map]
      exact List.map_congr_left (fun x _ => lcC_idem x)

theorem splitSchemeU_sub (l : List Char) : ∀ c ∈ (splitSchemeU l).2, c ∈ l := by
  rcases splitSchemeU_cases l with h | ⟨c0, rest0, post, hs, _, h⟩
  · rw [h]
    exact fun c hc => hc
  · rw [h]
    exact (splitFirst_sub ':' l (c0 :: rest0) post hs).2

theorem splitNetlocU_netloc_chars (rest : List Char) :
    ∀ c ∈ (splitNetlocU rest).1, notDelim c = true := by
  unfold splitNetlocU
  by_cases h : rest.take 2 = ['/', '/']
  · rw [if_pos h]
    intro c hc
    exact List.mem_takeWhile_imp hc
  · rw [if_neg h]
    intro c hc
    simp at hc

theorem splitNetlocU_sub (rest : List Char) : ∀ c ∈ (splitNetlocU rest).2, c ∈ rest := by
  unfold splitNetlocU
  by_cases h : rest.take 2 = ['/', '/']
  · rw [if_pos h]
    intro c hc
    exact List.drop_subset _ _ (List.drop_subset _ _ hc)
  · rw [if_neg h]
    exact fun c hc => hc

theorem splitParams_sub (l : List Char) :
    (∀ c ∈ (splitParams l).1, c ∈ l) ∧ (∀ c ∈ (splitParams l).2, c ∈ l) := by
  unfold splitParams
  by_cases h : l.any (fun c => c == '/') = true
  · rw [if_pos h]
    cases hi : indexOfFrom ';' l ((lastIndexOf '/' l).getD 0) with
    | none => exact ⟨fun c hc => hc, fun c hc => by simp at hc⟩
    | some i => exact ⟨fun c hc => List.take_subset _ _ hc, fun c hc => List.drop_subset _ _ hc⟩
  · rw [if_neg h]
    cases hs : splitFirst ';' l with
    | none => exact ⟨fun c hc => hc, fun c hc => by simp at hc⟩
    | some p => exact splitFirst_sub ';' l p.1 p.2 (by rw [hs])


/-! ## Decoding a percent-free query string -/

theorem toList_eq_data (s : String) : s.toList = s.data := rfl

theorem mk_eq_empty (l : List Char) (h : String.mk l = "") : l = [] := by
  simpa using congrArg String.data h

theorem unquoteChars_no_percent : ∀ (l : List Char), (∀ c ∈ l, c ≠ '%') →
    unquoteChars l = l.map (fun c => if c == '+' then ' ' else c) := by
  intro l
  induction l with
  | nil => intro _; rfl
  | cons c rest ih =>
    intro h
    by_cases hc : c = '+'
    · subst hc
      rw [unquoteChars_plus, ih (fun x hx => h x (by simp [hx]))]
      simp
    · have hcp : c ≠ '%' := h c (by simp)
      rw [unquoteChars_cons_default c rest hc hcp, ih (fun x hx => h x (by simp [hx])),
        List.map_cons, if_neg (by simpa using hc)]

theorem unquoteChars_mem (l : List Char) (h : ∀ c ∈ l, c ≠ '%') :
    ∀ c ∈ unquoteChars l, c = ' ' ∨ c ∈ l := by
  rw [unquoteChars_no_percent l h]
  intro c hc
  rw [List.mem_map] at hc
  obtain ⟨x, hx, rfl⟩ := hc
  by_cases hp : (x == '+') = true
  · rw [if_pos hp]
    exact Or.inl rfl
  · rw [if_neg hp]
    exact Or.inr hx

theorem qslField_mem (f : List Char) (acc : List (String × String)) (hf : ∀ c ∈ f, c ≠ '%') :
    ∀ kv ∈ qslField true f acc, kv ∈ acc ∨
      ((∀ c ∈ kv.1.toList, c = ' ' ∨ c ∈ f) ∧ (∀ c ∈ kv.2.toList, c = ' ' ∨ c ∈ f)) := by
  intro kv hkv
  by_cases he : f.isEmpty = true
  · rw [show qslField true f acc = acc from by unfold qslField; rw [if_pos he]] at hkv
    exact Or.inl hkv
  · cases hs : splitFirst '=' f with
    | some p =>
      obtain ⟨k, v⟩ := p
      have heq : qslField true f acc =
          (String.mk (unquoteChars k), String.mk (unquoteChars v)) :: acc := by
        unfold qslField
        rw [if_neg he, hs]
        show (if (!v.isEmpty || true) = true
            then (String.mk (unquoteChars k), String.mk (unquoteChars v)) :: acc else acc) =
          (String.mk (unquoteChars k), String.mk (unquoteChars v)) :: acc
        rw [if_pos (by simp)]
      rw [heq] at hkv
      rcases List.mem_cons.mp hkv with rfl | hin
      · right
        obtain ⟨hks, hvs⟩ := splitFirst_sub '=' f k v hs
        constructor
        · intro c hc
          rcases unquoteChars_mem k (fun x hx => hf x (hks x hx)) c hc with h1 | h2
          · exact Or.inl h1
          · exact Or.inr (hks c h2)
        · intro c hc
          rcases unquoteChars_mem v (fun x hx => hf x (hvs x hx)) c hc with h1 | h2
          · exact Or.inl h1
          · exact Or.inr (hvs c h2)
      · exact Or.inl hin
    | none =>
      have heq : qslField true f acc = (String.mk (unquoteChars f), "") :: acc := by
        unfold qslField
        rw [if_neg he, hs]
        show (if true = true then (String.mk (unquoteChars f), "") :: acc else acc) =
          (String.mk (unquoteChars f), "") :: acc
        rw [if_pos rfl]
      rw [heq] at hkv
      rcases List.mem_cons.mp hkv with rfl | hin
      · right
        constructor
        · intro c hc
          rcases unquoteChars_mem f hf c hc with h1 | h2
          · exact Or.inl h1
          · exact Or.inr h2
        · intro c hc
          simp at hc
      · exact Or.inl hin

theorem parse_qsl_mem (qs : String) (h : ∀ c ∈ qs.toList, c ≠ '%') :
    ∀ kv ∈ parse_qsl true qs,
      (∀ c ∈ kv.1.toList, c = ' ' ∨ c ∈ qs.toList) ∧
      (∀ c ∈ kv.2.toList, c = ' ' ∨ c ∈ qs.toList) := by
  have hgen : ∀ (fs : List (List Char)), (∀ f ∈ fs, ∀ c ∈ f, c ∈ qs.toList) →
      ∀ kv ∈ fs.foldr (qslField true) [],
        (∀ c ∈ kv.1.toList, c = ' ' ∨ c ∈ qs.toList) ∧
        (∀ c ∈ kv.2.toList, c = ' ' ∨ c ∈ qs.toList) := by
    intro fs
    induction fs with
    | nil => intro _ kv hkv; simp at hkv
    | cons f rest ih =>
      intro hfs kv hkv
      rw [List.foldr_cons] at hkv
      rcases qslField_mem f _ (fun c hc => h c (hfs f (by simp) c hc)) kv hkv with hin | hnew
      · exact ih (fun g hg => hfs g (by simp [hg])) kv hin
      · constructor
        · intro c hc
          rcases hnew.1 c hc with h1 | h2
          · exact Or.inl h1
          · exact Or.inr (hfs f (by simp) c h2)
        · intro c hc
          rcases hnew.2 c hc with h1 | h2
          · exact Or.inl h1
          · exact Or.inr (hfs f (by simp) c h2)
  exact hgen (splitChar '&' qs.toList) (splitChar_sub '&' qs.toList)

theorem parse_qsl_ascii (qs : String) (h : ∀ c ∈ qs.toList, plainAscii c) :
    ∀ kv ∈ parse_qsl true qs,
      (∀ c ∈ kv.1.toList, c.toNat < 128) ∧ (∀ c ∈ kv.2.toList, c.toNat < 128) := by
  intro kv hkv
  have hm := parse_qsl_mem qs (fun c hc => (h c hc).2) kv hkv
  constructor
  · intro c hc
    rcases hm.1 c hc with rfl | hcq
    · decide
    · exact (h c hcq).1
  · intro c hc
    rcases hm.2 c hc with rfl | hcq
    · decide
    · exact (h c hcq).1

/-! ## Grouping by key: `parse_qs` over `addPair` -/

theorem addPair_fst_update (acc : List (String × List String)) (kv : String × String) :
    (acc.map (fun p => if p.1 == kv.1 then (p.1, p.2 ++ [kv.2]) else p)).map Prod.fst
      = acc.map Prod.fst := by
  rw [List.map_map]
  apply List.map_congr_left
  intro p _
  by_cases hp : (p.1 == kv.1) = true
  · show Prod.fst (if p.1 == kv.1 then (p.1, p.2 ++ [kv.2]) else p) = p.1
    rw [if_pos hp]
  · show Prod.fst (if p.1 == kv.1 then (p.1, p.2 ++ [kv.2]) else p) = p.1
    rw [if_neg hp]

theorem addPair_nodup (acc : List (String × List String)) (kv : String × String)
    (h : (acc.map Prod.fst).Nodup) : ((addPair acc kv).map Prod.fst).Nodup := by
  unfold addPair
  by_cases ha : acc.any (fun p => p.1 == kv.1) = true
  · rw [if_pos ha, addPair_fst_update]
    exact h
  · rw [if_neg ha, List.map_append]
    rw [List.nodup_append]
    refine ⟨h, by simp, ?_⟩
    intro a hamem hbmem
    simp only [List.map_cons, List.map_nil, List.mem_singleton] at hbmem
    subst hbmem
    simp only [List.mem_map] at hamem
    obtain ⟨p, hp, hpe⟩ := hamem
    rw [List.any_eq_true] at ha
    exact ha ⟨p, hp, by rw [beq_iff_eq]; exact hpe⟩

theorem foldl_addPair_nodup : ∀ (l : List (String × String)) (acc : List (String × List String)),
    (acc.map Prod.fst).Nodup → ((l.foldl addPair acc).map Prod.fst).Nodup := by
  intro l
  induction l with
  | nil => intro acc h; exact h
  | cons kv rest ih =>
    intro acc h
    rw [List.foldl_cons]
    exact ih (addPair acc kv) (addPair_nodup acc kv h)

theorem parse_qs_keys_nodup (qs : String) : ((parse_qs true qs).map Prod.fst).Nodup :=
  foldl_addPair_nodup (parse_qsl true qs) [] (by simp)

theorem foldl_addPair_pred (K : String → Prop) (V : String → Prop) :
    ∀ (l : List (String × String)) (acc : List (String × List String)),
    (∀ kv ∈ l, K kv.1 ∧ V kv.2) →
    (∀ p ∈ acc, K p.1 ∧ ∀ v ∈ p.2, V v) →
    ∀ p ∈ l.foldl addPair acc, K p.1 ∧ ∀ v ∈ p.2, V v := by
  intro l
  induction l with
  | nil => intro acc _ hacc p hp; exact hacc p hp
  | cons kv rest ih =>
    intro acc hl hacc p hp
    rw [List.foldl_cons] at hp
    refine ih (addPair acc kv) (fun x hx => hl x (by simp [hx])) ?_ p hp
    intro x hx
    unfold addPair at hx
    by_cases ha : acc.any (fun q => q.1 == kv.1) = true
    · rw [if_pos ha] at hx
      simp only [List.mem_map] at hx
      obtain ⟨q, hq, hqe⟩ := hx
      by_cases hb : (q.1 == kv.1) = true
      · rw [if_pos hb] at hqe
        subst hqe
        refine ⟨(hacc q hq).1, ?_⟩
        intro v hv
        rcases List.mem_append.mp hv with h1 | h2
        · exact (hacc q hq).2 v h1
        · rw [List.mem_singleton] at h2
          subst h2
          exact (hl kv (by simp)).2
      · rw [if_neg hb] at hqe
        subst hqe
        exact hacc q hq
    · rw [if_neg ha] at hx
      rcases List.mem_append.mp hx with h1 | h2
      · exact hacc x h1
      · rw [List.mem_singleton] at h2
        subst h2
        refine ⟨(hl kv (by simp)).1, ?_⟩
        intro v hv
        rw [List.mem_singleton] at hv
        subst hv
        exact (hl kv (by simp)).2

theorem foldl_addPair_fresh : ∀ (l : List (String × String)) (acc : List (String × List String)),
    (l.map Prod.fst).Nodup →
    (∀ kv ∈ l, ∀ p ∈ acc, p.1 ≠ kv.1) →
    l.foldl addPair acc = acc ++ l.map (fun kv => (kv.1, [kv.2])) := by
  intro l
  induction l with
  | nil => intro acc _ _; simp
  | cons kv rest ih =>
    intro acc hnd hfresh
    rw [List.map_cons, List.nodup_cons] at hnd
    have hna : acc.any (fun p => p.1 == kv.1) = false := by
      rw [List.any_eq_false]
      intro p hp
      simp only [beq_iff_eq]
      exact hfresh kv (by simp) p hp
    have hstep : addPair acc kv = acc ++ [(kv.1, [kv.2])] := by
      unfold addPair
      rw [if_neg (by simp [hna])]
    have hfresh2 : ∀ kv2 ∈ rest, ∀ p ∈ acc ++ [(kv.1, [kv.2])], p.1 ≠ kv2.1 := by
      intro kv2 hkv2 p hp
      rcases List.mem_append.mp hp with h1 | h2
      · exact hfresh kv2 (by simp [hkv2]) p h1
      · rw [List.mem_singleton] at h2
        subst h2
        show kv.1 ≠ kv2.1
        intro he
        have hmem : kv2.1 ∈ rest.map Prod.fst := List.mem_map.mpr ⟨kv2, hkv2, rfl⟩
        rw [← he] at hmem
        exact hnd.1 hmem
    rw [List.foldl_cons, hstep, ih (acc ++ [(kv.1, [kv.2])]) hnd.2 hfresh2]
    simp

theorem withIndex0_keys_nodup (q : List (String × List String))
    (h : (q.map Prod.fst).Nodup) : ((withIndex0 q).map Prod.fst).Nodup := by
  unfold withIndex0
  by_cases ha : q.any (fun p => p.1 == "index") = true
  · rw [if_pos ha]
    exact h
  · rw [if_neg ha, List.map_append, List.nodup_append]
    refine ⟨h, by simp, ?_⟩
    intro a hamem hbmem
    simp only [List.map_cons, List.map_nil, List.mem_singleton] at hbmem
    subst hbmem
    simp only [List.mem_map] at hamem
    obtain ⟨p, hp, hpe⟩ := hamem
    rw [List.any_eq_true] at ha
    exact ha ⟨p, hp, by rw [beq_iff_eq]; exact hpe⟩

theorem getLastD_mem_or : ∀ (l : List String) (d : String), l.getLastD d ∈ l ∨ l.getLastD d = d := by
  intro l
  induction l with
  | nil => intro d; exact Or.inr rfl
  | cons a t ih =>
    intro d
    rw [List.getLastD_cons]
    rcases ih a with h1 | h2
    · exact Or.inl (List.mem_cons_of_mem a h1)
    · rw [h2]
      exact Or.inl (List.mem_cons_self a t)

theorem parse_qs_foldl (keepBlank : Bool) (qs : String) :
    parse_qs keepBlank qs = (parse_qsl keepBlank qs).foldl addPair [] := rfl

/-! ## Shape of the re-encoded query string -/

theorem joinAmp_mem : ∀ (fields : List (List Char)), ∀ c ∈ joinAmp fields,
    c = '&' ∨ ∃ f ∈ fields, c ∈ f := by
  intro fields
  induction fields with
  | nil => intro c hc; simp [joinAmp] at hc
  | cons f rest ih =>
    intro c hc
    cases rest with
    | nil =>
      exact Or.inr ⟨f, by simp, hc⟩
    | cons g r =>
      rw [show joinAmp (f :: g :: r) = f ++ '&' :: joinAmp (g :: r) from rfl] at hc
      rcases List.mem_append.mp hc with h1 | h2
      · exact Or.inr ⟨f, by simp, h1⟩
      · rcases List.mem_cons.mp h2 with rfl | h3
        · exact Or.inl rfl
        · rcases ih c h3 with hamp | ⟨f2, hf2, hcf2⟩
          · exact Or.inl hamp
          · exact Or.inr ⟨f2, by simp [hf2], hcf2⟩

theorem urlencode_chars (l : List (String × String))
    (h : ∀ kv ∈ l, (∀ c ∈ kv.1.toList, c.toNat < 128) ∧ (∀ c ∈ kv.2.toList, c.toNat < 128)) :
    ∀ c ∈ (urlencode l).toList, c ≠ '#' ∧ c ≠ '?' := by
  intro c hc
  have hc' : c ∈ joinAmp (l.map
      (fun kv => (quote_plus kv.1).toList ++ '=' :: (quote_plus kv.2).toList)) := hc
  rcases joinAmp_mem
      (l.map (fun kv => (quote_plus kv.1).toList ++ '=' :: (quote_plus kv.2).toList)) c hc'
    with rfl | ⟨f, hf, hcf⟩
  · exact ⟨by decide, by decide⟩
  · simp only [List.mem_map] at hf
    obtain ⟨kv, hkv, rfl⟩ := hf
    rcases List.mem_append.mp hcf with h1 | h2
    · exact ⟨(quote_plus_chars kv.1 (h kv hkv).1 c h1).2.2.1,
        (quote_plus_chars kv.1 (h kv hkv).1 c h1).2.2.2⟩
    · rcases List.mem_cons.mp h2 with rfl | h3
      · exact ⟨by decide, by decide⟩
      · exact ⟨(quote_plus_chars kv.2 (h kv hkv).2 c h3).2.2.1,
          (quote_plus_chars kv.2 (h kv hkv).2 c h3).2.2.2⟩

theorem urlencode_ne_empty (kv : String × String) (rest : List (String × String)) :
    urlencode (kv :: rest) ≠ "" := by
  intro h
  have h2 : joinAmp ((kv :: rest).map
      (fun kv => (quote_plus kv.1).toList ++ '=' :: (quote_plus kv.2).toList)) = [] :=
    mk_eq_empty _ h
  rw [List.map_cons] at h2
  cases hr : rest.map (fun kv => (quote_plus kv.1).toList ++ '=' :: (quote_plus kv.2).toList) with
  | nil =>
    rw [hr] at h2
    rw [show joinAmp [(quote_plus kv.1).toList ++ '=' :: (quote_plus kv.2).toList] =
      (quote_plus kv.1).toList ++ '=' :: (quote_plus kv.2).toList from rfl] at h2
    simp at h2
  | cons g r =>
    rw [hr] at h2
    rw [show joinAmp (((quote_plus kv.1).toList ++ '=' :: (quote_plus kv.2).toList) :: g :: r) =
      ((quote_plus kv.1).toList ++ '=' :: (quote_plus kv.2).toList) ++ '&' :: joinAmp (g :: r)
      from rfl] at h2
    simp at h2

/-! ## `urlparse` recovers the components `urlunparse` assembled -/

theorem takeWhile_append_all (p : Char → Bool) : ∀ (a b : List Char), (∀ c ∈ a, p c = true) →
    (a ++ b).takeWhile p = a ++ b.takeWhile p := by
  intro a
  induction a with
  | nil => intro b _; simp
  | cons c rest ih =>
    intro b h
    rw [List.cons_append, List.takeWhile_cons, if_pos (h c (by simp)),
      ih b (fun x hx => h x (by simp [hx])), List.cons_append]

theorem splitNetlocU_slash (mid : List Char) :
    splitNetlocU ('/' :: '/' :: mid)
      = (mid.takeWhile notDelim, mid.drop (mid.takeWhile notDelim).length) := rfl

theorem splitSchemeU_of_valid (l pre post : List Char)
    (hsf : splitFirst ':' l = some (pre, post))
    (hhead : ∃ c rest, pre = c :: rest ∧ c.isAlpha = true)
    (hall : pre.all schemeCharB = true) :
    splitSchemeU l = (pre.map lcC, post) := by
  obtain ⟨c0, rest0, rfl, hal⟩ := hhead
  unfold splitSchemeU
  rw [hsf]
  show (if (c0.isAlpha && (c0 :: rest0).all schemeCharB) = true
      then ((c0 :: rest0).map lcC, post) else ([], l)) = ((c0 :: rest0).map lcC, post)
  rw [if_pos (by rw [hal, hall]; rfl)]

theorem mem_dropTabCrLf (l : List Char) (c : Char) (h : c ∈ dropTabCrLf l) :
    c ∈ l ∧ tabCrLf c = false := by
  unfold dropTabCrLf at h
  have h1 := List.mem_filter.mp h
  refine ⟨h1.1, ?_⟩
  simpa using h1.2

theorem dropTabCrLf_of_all (l : List Char) (h : ∀ c ∈ l, tabCrLf c = false) :
    dropTabCrLf l = l := by
  unfold dropTabCrLf
  rw [List.filter_eq_self]
  intro c hc
  simp [h c hc]

theorem schemeCharB_no_tabs (c : Char) (h : schemeCharB c = true) : tabCrLf c = false := by
  by_contra hne
  rw [Bool.not_eq_false] at hne
  unfold tabCrLf at hne
  simp only [Bool.or_eq_true, beq_iff_eq] at hne
  rcases hne with (rfl | rfl) | rfl
  · exact absurd h (by decide)
  · exact absurd h (by decide)
  · exact absurd h (by decide)

theorem hexDigit_no_tabs : ∀ n : Fin 16, tabCrLf (hexDigit n.val) = false := by decide

theorem quoteChar_no_tabs (c : Char) (h : c.toNat < 128) :
    ∀ x ∈ quoteChar c, tabCrLf x = false := by
  intro x hx
  unfold quoteChar at hx
  by_cases hs : safeQ c = true
  · rw [if_pos hs] at hx
    rw [List.mem_singleton] at hx
    subst hx
    by_contra hne
    rw [Bool.not_eq_false] at hne
    unfold tabCrLf at hne
    simp only [Bool.or_eq_true, beq_iff_eq] at hne
    rcases hne with (rfl | rfl) | rfl
    · exact absurd hs (by decide)
    · exact absurd hs (by decide)
    · exact absurd hs (by decide)
  · rw [if_neg hs] at hx
    by_cases hsp : (c == ' ') = true
    · rw [if_pos hsp] at hx
      rw [List.mem_singleton] at hx
      subst hx
      decide
    · rw [if_neg hsp] at hx
      rw [utf8Bytes, if_pos h] at hx
      simp only [List.foldr_cons, List.foldr_nil] at hx
      rcases List.mem_cons.mp hx with rfl | hx2
      · decide
      · rcases List.mem_cons.mp hx2 with rfl | hx3
        · exact hexDigit_no_tabs ⟨c.toNat / 16, by omega⟩
        · rcases List.mem_cons.mp hx3 with rfl | hx4
          · exact hexDigit_no_tabs ⟨c.toNat % 16, by omega⟩
          · simp at hx4

theorem quote_fold_no_tabs : ∀ (l : List Char), (∀ c ∈ l, c.toNat < 128) →
    ∀ y ∈ l.foldr (fun c acc => quoteChar c ++ acc) [], tabCrLf y = false := by
  intro l
  induction l with
  | nil => intro _ y hy; simp at hy
  | cons c rest ih =>
    intro h y hy
    rw [List.foldr_cons] at hy
    rcases List.mem_append.mp hy with h1 | h2
    · exact quoteChar_no_tabs c (h c (by simp)) y h1
    · exact ih (fun x hx => h x (by simp [hx])) y h2

theorem urlencode_no_tabs (l : List (String × String))
    (h : ∀ kv ∈ l, (∀ c ∈ kv.1.toList, c.toNat < 128) ∧ (∀ c ∈ kv.2.toList, c.toNat < 128)) :
    ∀ c ∈ (urlencode l).toList, tabCrLf c = false := by
  intro c hc
  have hc' : c ∈ joinAmp (l.map
      (fun kv => (quote_plus kv.1).toList ++ '=' :: (quote_plus kv.2).toList)) := hc
  rcases joinAmp_mem
      (l.map (fun kv => (quote_plus kv.1).toList ++ '=' :: (quote_plus kv.2).toList)) c hc'
    with rfl | ⟨f, hf, hcf⟩
  · decide
  · simp only [List.mem_map] at hf
    obtain ⟨kv, hkv, rfl⟩ := hf
    rcases List.mem_append.mp hcf with h1 | h2
    · exact quote_fold_no_tabs kv.1.toList (h kv hkv).1 c h1
    · rcases List.mem_cons.mp h2 with rfl | h3
      · decide
      · exact quote_fold_no_tabs kv.2.toList (h kv hkv).2 c h3

theorem splitNetlocU_netloc_sub (rest : List Char) :
    ∀ c ∈ (splitNetlocU rest).1, c ∈ rest := by
  unfold splitNetlocU
  by_cases h : rest.take 2 = ['/', '/']
  · rw [if_pos h]
    intro c hc
    exact List.drop_subset _ _ ((List.takeWhile_prefix _).subset hc)
  · rw [if_neg h]
    intro c hc
    simp at hc

/-- Inversion of a successful `splitUrlChecked`: the netloc passed the
bracket test and each component is the corresponding raw stage value. -/
theorem splitUrlChecked_inv (l : List Char) (u : UrlParts)
    (h : splitUrlChecked l = some u) :
    bracketBad (splitNetlocU (splitSchemeU l).2).1 = false ∧
    u.scheme.toList = (splitSchemeU l).1 ∧
    u.netloc.toList = (splitNetlocU (splitSchemeU l).2).1 ∧
    u.query.toList =
      (splitAtChar '?' (splitAtChar '#' (splitNetlocU (splitSchemeU l).2).2).1).2 ∧
    (∀ c, c ∈ u.path.toList ∨ c ∈ u.params.toList →
      c ∈ (splitAtChar '?' (splitAtChar '#' (splitNetlocU (splitSchemeU l).2).2).1).1) ∧
    u.fragment.toList = (splitAtChar '#' (splitNetlocU (splitSchemeU l).2).2).2 := by
  unfold splitUrlChecked at h
  simp only [] at h
  by_cases hg : bracketBad (splitNetlocU (splitSchemeU l).2).1 = true
  · rw [if_pos hg] at h
    exact absurd h (by simp)
  · rw [if_neg hg] at h
    rw [Option.some_inj] at h
    subst h
    refine ⟨by simpa using hg, rfl, rfl, rfl, ?_, rfl⟩
    intro c hc
    by_cases hany : ((splitAtChar '?'
        (splitAtChar '#' (splitNetlocU (splitSchemeU l).2).2).1).1.any
        (fun c => c == ';')) = true
    · rcases hc with hc | hc
      · rw [show ((if (splitAtChar '?' (splitAtChar '#'
            (splitNetlocU (splitSchemeU l).2).2).1).1.any (fun c => c == ';')
            then splitParams (splitAtChar '?' (splitAtChar '#'
              (splitNetlocU (splitSchemeU l).2).2).1).1
            else ((splitAtChar '?' (splitAtChar '#'
              (splitNetlocU (splitSchemeU l).2).2).1).1, []))) =
          splitParams (splitAtChar '?' (splitAtChar '#'
            (splitNetlocU (splitSchemeU l).2).2).1).1 from if_pos hany] at hc
        exact (splitParams_sub _).1 c hc
      · rw [show ((if (splitAtChar '?' (splitAtChar '#'
            (splitNetlocU (splitSchemeU l).2).2).1).1.any (fun c => c == ';')
            then splitParams (splitAtChar '?' (splitAtChar '#'
              (splitNetlocU (splitSchemeU l).2).2).1).1
            else ((splitAtChar '?' (splitAtChar '#'
              (splitNetlocU (splitSchemeU l).2).2).1).1, []))) =
          splitParams (splitAtChar '?' (splitAtChar '#'
            (splitNetlocU (splitSchemeU l).2).2).1).1 from if_pos hany] at hc
        exact (splitParams_sub _).2 c hc
    · rcases hc with hc | hc
      · rw [show ((if (splitAtChar '?' (splitAtChar '#'
            (splitNetlocU (splitSchemeU l).2).2).1).1.any (fun c => c == ';')
            then splitParams (splitAtChar '?' (splitAtChar '#'
              (splitNetlocU (splitSchemeU l).2).2).1).1
            else ((splitAtChar '?' (splitAtChar '#'
              (splitNetlocU (splitSchemeU l).2).2).1).1, []))) =
          ((splitAtChar '?' (splitAtChar '#'
            (splitNetlocU (splitSchemeU l).2).2).1).1, []) from if_neg hany] at hc
        exact hc
      · rw [show ((if (splitAtChar '?' (splitAtChar '#'
            (splitNetlocU (splitSchemeU l).2).2).1).1.any (fun c => c == ';')
            then splitParams (splitAtChar '?' (splitAtChar '#'
              (splitNetlocU (splitSchemeU l).2).2).1).1
            else ((splitAtChar '?' (splitAtChar '#'
              (splitNetlocU (splitSchemeU l).2).2).1).1, []))) =
          ((splitAtChar '?' (splitAtChar '#'
            (splitNetlocU (splitSchemeU l).2).2).1).1, []) from if_neg hany] at hc
        simp at hc

theorem urlparse_unparse_parts (s' n' P nq F : List Char)
    (hhead : ∃ c rest, s' = c :: rest ∧ c.isAlpha = true)
    (hall : s'.all schemeCharB = true)
    (hlc : s'.map lcC = s')
    (hn : ∀ c ∈ n', notDelim c = true)
    (hbr : bracketBad n' = false)
    (hPc : ∀ c ∈ P, c ≠ '#' ∧ c ≠ '?')
    (hPh : P = [] ∨ ∃ t, P = '/' :: t)
    (hqc : ∀ c ∈ nq, c ≠ '#' ∧ c ≠ '?')
    (hF : F = [] ∨ ∃ g, F = '#' :: g) :
    ∃ r, splitUrlChecked (s' ++ ':' :: '/' :: '/' :: (n' ++ (P ++ '?' :: (nq ++ F))))
        = some r ∧
      r.scheme = String.mk s' ∧ r.netloc = String.mk n' ∧ r.query = String.mk nq := by
  have hsf : splitFirst ':' (s' ++ ':' :: '/' :: '/' :: (n' ++ (P ++ '?' :: (nq ++ F))))
      = some (s', '/' :: '/' :: (n' ++ (P ++ '?' :: (nq ++ F)))) :=
    splitFirst_append_sep ':' _ _
      (fun c hc => schemeCharB_ne_colon c (List.all_eq_true.mp hall c hc))
  have hsch : splitSchemeU (s' ++ ':' :: '/' :: '/' :: (n' ++ (P ++ '?' :: (nq ++ F))))
      = (s', '/' :: '/' :: (n' ++ (P ++ '?' :: (nq ++ F)))) := by
    rw [splitSchemeU_of_valid _ s' _ hsf hhead hall, hlc]
  have htw : ((P ++ '?' :: (nq ++ F)).takeWhile notDelim) = [] := by
    rcases hPh with rfl | ⟨t, rfl⟩
    · rw [List.nil_append, List.takeWhile_cons, if_neg (by decide)]
    · rw [List.cons_append, List.takeWhile_cons, if_neg (by decide)]
  have hnet : splitNetlocU ('/' :: '/' :: (n' ++ (P ++ '?' :: (nq ++ F))))
      = (n', P ++ '?' :: (nq ++ F)) := by
    rw [splitNetlocU_slash]
    rw [takeWhile_append_all notDelim n' _ hn, htw, List.append_nil]
    rw [List.drop_left]
  have hfr1 : (splitAtChar '#' (P ++ '?' :: (nq ++ F))).1 = P ++ '?' :: nq := by
    have hno : ∀ c ∈ P ++ '?' :: nq, c ≠ '#' := by
      intro c hc
      rcases List.mem_append.mp hc with h1 | h2
      · exact (hPc c h1).1
      · rcases List.mem_cons.mp h2 with rfl | h3
        · decide
        · exact (hqc c h3).1
    rcases hF with rfl | ⟨g, rfl⟩
    · rw [List.append_nil]
      unfold splitAtChar
      rw [splitFirst_of_no_sep '#' _ hno]
    · have hsplit2 : P ++ '?' :: (nq ++ '#' :: g) = (P ++ '?' :: nq) ++ '#' :: g := by
        simp
      rw [hsplit2]
      unfold splitAtChar
      rw [splitFirst_append_sep '#' _ _ hno]
  have hqr : splitAtChar '?' (P ++ '?' :: nq) = (P, nq) := by
    unfold splitAtChar
    rw [splitFirst_append_sep '?' _ _ (fun c hc => (hPc c hc).2)]
  cases hres : splitUrlChecked (s' ++ ':' :: '/' :: '/' :: (n' ++ (P ++ '?' :: (nq ++ F)))) with
  | none =>
    exfalso
    unfold splitUrlChecked at hres
    simp [hsch, hnet, hbr] at hres
  | some r =>
    refine ⟨r, rfl, ?_⟩
    unfold splitUrlChecked at hres
    simp [hsch, hnet, hfr1, hqr, hbr] at hres
    subst hres
    exact ⟨rfl, rfl, rfl⟩

theorem urlparse_urlunparse (s' n' path params nq frag : String)
    (hs1 : s' ≠ "")
    (hhead : ∃ c rest, s'.toList = c :: rest ∧ c.isAlpha = true)
    (hall : s'.toList.all schemeCharB = true)
    (hlc : s'.toList.map lcC = s'.toList)
    (hnne : n' ≠ "")
    (hn : ∀ c ∈ n'.toList, notDelim c = true)
    (hbr : bracketBad n'.toList = false)
    (hpath : ∀ c ∈ path.toList, c ≠ '#' ∧ c ≠ '?')
    (hparams : ∀ c ∈ params.toList, c ≠ '#' ∧ c ≠ '?')
    (hqc : ∀ c ∈ nq.toList, c ≠ '#' ∧ c ≠ '?')
    (hqne : nq ≠ "")
    (hts : ∀ c ∈ s'.toList, tabCrLf c = false)
    (htn : ∀ c ∈ n'.toList, tabCrLf c = false)
    (htp : ∀ c ∈ path.toList, tabCrLf c = false)
    (htm : ∀ c ∈ params.toList, tabCrLf c = false)
    (htq : ∀ c ∈ nq.toList, tabCrLf c = false)
    (htf : ∀ c ∈ frag.toList, tabCrLf c = false) :
    ∃ r, urlparse (urlunparse ⟨s', n', path, params, nq, frag⟩) = some r ∧
      r.scheme = s' ∧ r.netloc = n' ∧ r.query = nq := by
  obtain ⟨p0, hp0c, hp0t, hp0⟩ : ∃ p0 : List Char, (∀ c ∈ p0, c ≠ '#' ∧ c ≠ '?') ∧
      (∀ c ∈ p0, tabCrLf c = false) ∧
      (if params != "" then path ++ ";" ++ params else path) = String.mk p0 := by
    by_cases hp : (params != "") = true
    · refine ⟨path.toList ++ ';' :: params.toList, ?_, ?_, ?_⟩
      · intro c hc
        rcases List.mem_append.mp hc with h1 | h2
        · exact hpath c h1
        · rcases List.mem_cons.mp h2 with rfl | h3
          · exact ⟨by decide, by decide⟩
          · exact hparams c h3
      · intro c hc
        rcases List.mem_append.mp hc with h1 | h2
        · exact htp c h1
        · rcases List.mem_cons.mp h2 with rfl | h3
          · decide
          · exact htm c h3
      · rw [if_pos hp]
        apply String.ext
        rw [String.data_append, String.data_append,
          show (";" : String).data = [';'] from rfl, List.append_assoc]
        rfl
    · exact ⟨path.toList, hpath, htp, by rw [if_neg hp]; exact (mk_toList path).symm⟩
  obtain ⟨P, hPc, hPt, hPh, hP⟩ : ∃ P : List Char, (∀ c ∈ P, c ≠ '#' ∧ c ≠ '?') ∧
      (∀ c ∈ P, tabCrLf c = false) ∧
      (P = [] ∨ ∃ t, P = '/' :: t) ∧
      (if String.mk p0 != "" && (String.mk p0).toList.head? != some '/'
        then "/" ++ String.mk p0 else String.mk p0) = String.mk P := by
    by_cases hc : (String.mk p0 != "" && (String.mk p0).toList.head? != some '/') = true
    · refine ⟨'/' :: p0, ?_, ?_, Or.inr ⟨p0, rfl⟩, ?_⟩
      · intro c hcc
        rcases List.mem_cons.mp hcc with rfl | h3
        · exact ⟨by decide, by decide⟩
        · exact hp0c c h3
      · intro c hcc
        rcases List.mem_cons.mp hcc with rfl | h3
        · decide
        · exact hp0t c h3
      · rw [if_pos hc]
        apply String.ext
        rw [String.data_append, show ("/" : String).data = ['/'] from rfl]
        rfl
    · refine ⟨p0, hp0c, hp0t, ?_, by rw [if_neg hc]⟩
      by_cases hne : String.mk p0 = ""
      · exact Or.inl (mk_eq_empty p0 hne)
      · right
        have hX : (String.mk p0 != "") = true := bne_iff_ne.mpr hne
        rw [Bool.and_eq_true] at hc
        have hY2 : ¬(((String.mk p0).toList.head? != some '/') = true) := fun hy => hc ⟨hX, hy⟩
        have hY3 : (String.mk p0).toList.head? = some '/' := by
          by_contra hne2
          exact hY2 (bne_iff_ne.mpr hne2)
        cases p0 with
        | nil => simp at hY3
        | cons c0 t0 =>
          refine ⟨t0, ?_⟩
          have hc0 : c0 = '/' := by simpa using hY3
          rw [hc0]
  have hn'b : (n' != "") = true := bne_iff_ne.mpr hnne
  have hs'b : (s' != "") = true := bne_iff_ne.mpr hs1
  have hnqb : (nq != "") = true := bne_iff_ne.mpr hqne
  have hfin : urlunparse ⟨s', n', path, params, nq, frag⟩ =
      (if frag != "" then ((s' ++ ":" ++ ("//" ++ n' ++ String.mk P)) ++ "?" ++ nq) ++ "#" ++ frag
       else (s' ++ ":" ++ ("//" ++ n' ++ String.mk P)) ++ "?" ++ nq) := by
    show (let url0 := if params != "" then path ++ ";" ++ params else path
          let url1 := if n' != "" || url0.toList.take 2 == ['/', '/'] then
              "//" ++ n' ++
                (if url0 != "" && url0.toList.head? != some '/' then "/" ++ url0 else url0)
            else url0
          let url2 := if s' != "" then s' ++ ":" ++ url1 else url1
          let url3 := if nq != "" then url2 ++ "?" ++ nq else url2
          if frag != "" then url3 ++ "#" ++ frag else url3) = _
    simp only [hp0]
    rw [hP, hn'b, hs'b, hnqb]
    simp
  have main : ∀ F : List Char, (F = [] ∨ ∃ g, F = '#' :: g) →
      (∀ c ∈ F, tabCrLf c = false) →
      urlunparse ⟨s', n', path, params, nq, frag⟩ =
        String.mk (s'.toList ++ ':' :: '/' :: '/' ::
          (n'.toList ++ (P ++ '?' :: (nq.toList ++ F)))) →
      ∃ r, urlparse (urlunparse ⟨s', n', path, params, nq, frag⟩) = some r ∧
        r.scheme = s' ∧ r.netloc = n' ∧ r.query = nq := by
    intro F hF htF hU
    have hAtab : ∀ c ∈ s'.toList ++ ':' :: '/' :: '/' ::
        (n'.toList ++ (P ++ '?' :: (nq.toList ++ F))), tabCrLf c = false := by
      intro c hc
      rcases List.mem_append.mp hc with h1 | h2
      · exact hts c h1
      · rcases List.mem_cons.mp h2 with rfl | h2
        · decide
        · rcases List.mem_cons.mp h2 with rfl | h2
          · decide
          · rcases List.mem_cons.mp h2 with rfl | h2
            · decide
            · rcases List.mem_append.mp h2 with h3 | h3
              · exact htn c h3
              · rcases List.mem_append.mp h3 with h4 | h4
                · exact hPt c h4
                · rcases List.mem_cons.mp h4 with rfl | h4
                  · decide
                  · rcases List.mem_append.mp h4 with h5 | h5
                    · exact htq c h5
                    · exact htF c h5
    obtain ⟨r, hres, h1, h2, h3⟩ := urlparse_unparse_parts s'.toList n'.toList P nq.toList F
      hhead hall hlc hn hbr hPc hPh hqc hF
    refine ⟨r, ?_, ?_, ?_, ?_⟩
    · rw [hU]
      show splitUrlChecked (dropTabCrLf (s'.toList ++ ':' :: '/' :: '/' ::
        (n'.toList ++ (P ++ '?' :: (nq.toList ++ F))))) = some r
      rw [dropTabCrLf_of_all _ hAtab]
      exact hres
    · rw [h1]
      exact mk_toList s'
    · rw [h2]
      exact mk_toList n'
    · rw [h3]
      exact mk_toList nq
  by_cases hfr : (frag != "") = true
  · refine main ('#' :: frag.toList) (Or.inr ⟨frag.toList, rfl⟩) ?_ ?_
    · intro c hc
      rcases List.mem_cons.mp hc with rfl | h3
      · decide
      · exact htf c h3
    rw [hfin, if_pos hfr]
    apply String.ext
    simp [String.data_append, toList_eq_data,
      show (":" : String).data = [':'] from rfl,
      show ("//" : String).data = ['/', '/'] from rfl,
      show ("?" : String).data = ['?'] from rfl,
      show ("#" : String).data = ['#'] from rfl]
  · refine main [] (Or.inl rfl) (by intro c hc; simp at hc) ?_
    rw [hfin, if_neg hfr]
    apply String.ext
    simp [String.data_append, toList_eq_data,
      show (":" : String).data = [':'] from rfl,
      show ("//" : String).data = ['/', '/'] from rfl,
      show ("?" : String).data = ['?'] from rfl]


set_option maxHeartbeats 2000000 in
/-- C8 (amended).  On any URL made of plain ASCII (no percent escapes,
where the percent codec embedding is exact) that `urlparse` accepts, the
normalized URL's query decodes to the input's parameters grouped by key
with only each parameter's last value kept, plus `index → "0"` appended
when the key was absent; a missing scheme becomes `https` and a missing
network location becomes the Rightmove host, while present ones are
kept.  (Normalization itself can fail: an unbalanced-bracket netloc makes
`urlparse` raise, per the C8 counterexample.) -/
theorem C8_url_normalization (url : String) (u : UrlParts)
    (h : ∀ c ∈ url.toList, plainAscii c)
    (hu : urlparse url = some u) :
    ∃ nurl r, _normalize_search_url url = some nurl ∧ urlparse nurl = some r ∧
      r.scheme = (if u.scheme = "" then "https" else u.scheme) ∧
      r.netloc = (if u.netloc = "" then RIGHTMOVE_HOST else u.netloc) ∧
      parse_qs true r.query = lastOnly (withIndex0 (parse_qs true u.query)) := by
  obtain ⟨hbrac, hSeq, hNeq, hQeq, hPPmem, hFeq⟩ :=
    splitUrlChecked_inv (dropTabCrLf url.toList) u hu
  have hLsub : ∀ c ∈ dropTabCrLf url.toList, c ∈ url.toList :=
    fun c hc => (mem_dropTabCrLf _ c hc).1
  have hLtab : ∀ c ∈ dropTabCrLf url.toList, tabCrLf c = false :=
    fun c hc => (mem_dropTabCrLf _ c hc).2
  have hLascii : ∀ c ∈ dropTabCrLf url.toList, plainAscii c :=
    fun c hc => h c (hLsub c hc)
  have hquery_ascii : ∀ c ∈ u.query.toList, plainAscii c := by
    rw [hQeq]
    intro c hc
    have h1 := (splitAtChar_sub '?' _).2 c hc
    have h2 := (splitAtChar_sub '#' _).1 c h1
    have h3 := splitNetlocU_sub _ c h2
    exact hLascii c (splitSchemeU_sub _ c h3)
  have hq1 : ∀ c, c ∈ (splitAtChar '?' (splitAtChar '#'
      (splitNetlocU (splitSchemeU (dropTabCrLf url.toList)).2).2).1).1 →
      (c ≠ '#' ∧ c ≠ '?') ∧ c ∈ dropTabCrLf url.toList := by
    intro c hc
    refine ⟨⟨?_, splitAtChar_pre_no_sep '?' _ c hc⟩, ?_⟩
    · exact splitAtChar_pre_no_sep '#' _ c ((splitAtChar_sub '?' _).1 c hc)
    · have h1 := (splitAtChar_sub '?' _).1 c hc
      have h2 := (splitAtChar_sub '#' _).1 c h1
      have h3 := splitNetlocU_sub _ c h2
      exact splitSchemeU_sub _ c h3
  have hpath_c : ∀ c ∈ u.path.toList, c ≠ '#' ∧ c ≠ '?' :=
    fun c hc => (hq1 c (hPPmem c (Or.inl hc))).1
  have hparams_c : ∀ c ∈ u.params.toList, c ≠ '#' ∧ c ≠ '?' :=
    fun c hc => (hq1 c (hPPmem c (Or.inr hc))).1
  have hpath_t : ∀ c ∈ u.path.toList, tabCrLf c = false :=
    fun c hc => hLtab c (hq1 c (hPPmem c (Or.inl hc))).2
  have hparams_t : ∀ c ∈ u.params.toList, tabCrLf c = false :=
    fun c hc => hLtab c (hq1 c (hPPmem c (Or.inr hc))).2
  have hfrag_t : ∀ c ∈ u.fragment.toList, tabCrLf c = false := by
    rw [hFeq]
    intro c hc
    have h2 := (splitAtChar_sub '#' _).2 c hc
    have h3 := splitNetlocU_sub _ c h2
    exact hLtab c (splitSchemeU_sub _ c h3)
  obtain ⟨hS1, hShead, hSall, hSlc⟩ :
      (if u.scheme == "" then "https" else u.scheme) ≠ "" ∧
      (∃ c rest, (if u.scheme == "" then "https" else u.scheme).toList = c :: rest ∧
        c.isAlpha = true) ∧
      ((if u.scheme == "" then "https" else u.scheme).toList.all schemeCharB = true) ∧
      ((if u.scheme == "" then "https" else u.scheme).toList.map lcC
        = (if u.scheme == "" then "https" else u.scheme).toList) := by
    by_cases hsc : u.scheme = ""
    · rw [if_pos (by simpa using hsc)]
      exact ⟨by decide, ⟨'h', ['t', 't', 'p', 's'], by decide, by decide⟩, by decide, by decide⟩
    · rw [if_neg (by simpa using hsc)]
      rcases splitSchemeU_spec (dropTabCrLf url.toList) with h0 | ⟨_, hex, hall2, hmap⟩
      · exfalso
        apply hsc
        have hnil : u.scheme.toList = [] := by rw [hSeq, h0]
        calc u.scheme = String.mk u.scheme.toList := (mk_toList _).symm
          _ = String.mk [] := by rw [hnil]
          _ = "" := rfl
      · refine ⟨hsc, ?_, ?_, ?_⟩
        · rw [hSeq]
          exact hex
        · rw [hSeq]
          exact hall2
        · rw [hSeq]
          exact hmap
  have hS_t : ∀ c ∈ (if u.scheme == "" then "https" else u.scheme).toList, tabCrLf c = false :=
    fun c hc => schemeCharB_no_tabs c (List.all_eq_true.mp hSall c hc)
  have hNne : (if u.netloc == "" then RIGHTMOVE_HOST else u.netloc) ≠ "" := by
    by_cases hnc : u.netloc = ""
    · rw [if_pos (by simpa using hnc)]
      decide
    · rw [if_neg (by simpa using hnc)]
      exact hnc
  have hNc : ∀ c ∈ (if u.netloc == "" then RIGHTMOVE_HOST else u.netloc).toList,
      notDelim c = true := by
    by_cases hnc : u.netloc = ""
    · rw [if_pos (by simpa using hnc)]
      decide
    · rw [if_neg (by simpa using hnc)]
      rw [hNeq]
      intro c hc
      exact splitNetlocU_netloc_chars _ c hc
  have hNbr : bracketBad (if u.netloc == "" then RIGHTMOVE_HOST else u.netloc).toList
      = false := by
    by_cases hnc : u.netloc = ""
    · rw [if_pos (by simpa using hnc)]
      decide
    · rw [if_neg (by simpa using hnc)]
      rw [hNeq]
      exact hbrac
  have hN_t : ∀ c ∈ (if u.netloc == "" then RIGHTMOVE_HOST else u.netloc).toList,
      tabCrLf c = false := by
    by_cases hnc : u.netloc = ""
    · rw [if_pos (by simpa using hnc)]
      decide
    · rw [if_neg (by simpa using hnc)]
      rw [hNeq]
      intro c hc
      exact hLtab c (splitSchemeU_sub _ c (splitNetlocU_netloc_sub _ c hc))
  have hq_ascii : ∀ p ∈ parse_qs true u.query,
      (∀ c ∈ p.1.toList, c.toNat < 128) ∧ ∀ v ∈ p.2, ∀ c ∈ v.toList, c.toNat < 128 := by
    intro p hp
    exact foldl_addPair_pred (fun k => ∀ c ∈ k.toList, c.toNat < 128)
      (fun v => ∀ c ∈ v.toList, c.toNat < 128)
      (parse_qsl true u.query) []
      (parse_qsl_ascii _ hquery_ascii)
      (by intro x hx; simp at hx) p hp
  have hq'_ascii : ∀ p ∈ withIndex0 (parse_qs true u.query),
      (∀ c ∈ p.1.toList, c.toNat < 128) ∧ ∀ v ∈ p.2, ∀ c ∈ v.toList, c.toNat < 128 := by
    intro p hp
    unfold withIndex0 at hp
    by_cases ha : (parse_qs true u.query).any (fun p => p.1 == "index") = true
    · rw [if_pos ha] at hp
      exact hq_ascii p hp
    · rw [if_neg ha] at hp
      rcases List.mem_append.mp hp with h1 | h2
      · exact hq_ascii p h1
      · rw [List.mem_singleton] at h2
        subst h2
        refine ⟨by decide, ?_⟩
        intro v hv
        rw [List.mem_singleton] at hv
        subst hv
        decide
  have hL_ascii : ∀ kv ∈ (withIndex0 (parse_qs true u.query)).map
      (fun kv => (kv.1, kv.2.getLastD "")),
      (∀ c ∈ kv.1.toList, c.toNat < 128) ∧ (∀ c ∈ kv.2.toList, c.toNat < 128) := by
    intro kv hkv
    simp only [List.mem_map] at hkv
    obtain ⟨p, hp, rfl⟩ := hkv
    refine ⟨(hq'_ascii p hp).1, ?_⟩
    rcases getLastD_mem_or p.2 "" with hm | he
    · exact (hq'_ascii p hp).2 _ hm
    · rw [he]
      intro c hc
      simp at hc
  have hLnd : (((withIndex0 (parse_qs true u.query)).map
      (fun kv => (kv.1, kv.2.getLastD ""))).map Prod.fst).Nodup := by
    rw [List.map_map]
    have hco : (Prod.fst ∘ fun kv : String × List String => (kv.1, kv.2.getLastD ""))
        = Prod.fst := by
      funext kv
      rfl
    rw [hco]
    exact withIndex0_keys_nodup _ (parse_qs_keys_nodup _)
  have hq'ne : withIndex0 (parse_qs true u.query) ≠ [] := by
    unfold withIndex0
    by_cases ha : (parse_qs true u.query).any (fun p => p.1 == "index") = true
    · rw [if_pos ha]
      intro he
      rw [he] at ha
      simp at ha
    · rw [if_neg ha]
      simp
  have hNQne : urlencode ((withIndex0 (parse_qs true u.query)).map
      (fun kv => (kv.1, kv.2.getLastD ""))) ≠ "" := by
    cases hq : (withIndex0 (parse_qs true u.query)).map
        (fun kv => (kv.1, kv.2.getLastD "")) with
    | nil => exact absurd (List.map_eq_nil_iff.mp hq) hq'ne
    | cons kv rest => exact urlencode_ne_empty kv rest
  have hnorm : _normalize_search_url url = some (urlunparse
      ⟨(if u.scheme == "" then "https" else u.scheme),
       (if u.netloc == "" then RIGHTMOVE_HOST else u.netloc),
       u.path, u.params,
       urlencode ((withIndex0 (parse_qs true u.query)).map
         (fun kv => (kv.1, kv.2.getLastD ""))),
       u.fragment⟩) := by
    unfold _normalize_search_url
    rw [hu]
    rfl
  obtain ⟨r, hres, hr1, hr2, hr3⟩ := urlparse_urlunparse
    (if u.scheme == "" then "https" else u.scheme)
    (if u.netloc == "" then RIGHTMOVE_HOST else u.netloc)
    u.path u.params
    (urlencode ((withIndex0 (parse_qs true u.query)).map
      (fun kv => (kv.1, kv.2.getLastD ""))))
    u.fragment
    hS1 hShead hSall hSlc hNne hNc hNbr hpath_c hparams_c
    (urlencode_chars _ hL_ascii) hNQne
    hS_t hN_t hpath_t hparams_t (urlencode_no_tabs _ hL_ascii) hfrag_t
  refine ⟨_, r, hnorm, hres, ?_, ?_, ?_⟩
  · rw [hr1]
    by_cases hsc : u.scheme = ""
    · rw [if_pos (by simpa using hsc), if_pos hsc]
    · rw [if_neg (by simpa using hsc), if_neg hsc]
  · rw [hr2]
    by_cases hnc : u.netloc = ""
    · rw [if_pos (by simpa using hnc), if_pos hnc]
    · rw [if_neg (by simpa using hnc), if_neg hnc]
  · rw [hr3, parse_qs_foldl,
      parse_qsl_urlencode _ hL_ascii,
      foldl_addPair_fresh _ [] hLnd (by intro kv _ p hp; simp at hp),
      List.nil_append, List.map_map]
    rfl

/-- C8 counterexample.  The claim promises best-effort defaults "rather
than failing outright" for every input URL; but on an unbalanced-bracket
netloc urllib's `urlparse` raises `ValueError: Invalid IPv6 URL`, which
propagates out of `_normalize_search_url`: normalization fails. -/
theorem C8_counterexample : _normalize_search_url "http://[::1/p" = none := by decide

/-- Witness for C8 (amended), at a concrete scheme-less search URL with a
repeated parameter and no index key. -/
theorem C8_url_normalization_witness :
    (∀ c ∈ ("find.html?a=1&a=2" : String).toList, plainAscii c) ∧
    urlparse "find.html?a=1&a=2" = some ⟨"", "", "find.html", "", "a=1&a=2", ""⟩ ∧
    (∃ nurl r, _normalize_search_url "find.html?a=1&a=2" = some nurl ∧
      urlparse nurl = some r ∧
      r.scheme = (if ("" : String) = "" then "https" else "") ∧
      r.netloc = (if ("" : String) = "" then RIGHTMOVE_HOST else "") ∧
      parse_qs true r.query = lastOnly (withIndex0 (parse_qs true "a=1&a=2"))) :=
  ⟨by decide, by decide,
    C8_url_normalization "find.html?a=1&a=2" ⟨"", "", "find.html", "", "a=1&a=2", ""⟩
      (by decide) (by decide)⟩

end PropertyHunt
